import Mathlib

/-!
# Overlapping additive Schwarz smoother

A shallow embedding of `examples/Smoother/Schwarz.cpp`: the discovery of the
patch contribution sets (`patch_nod_info`), the assembly of the per-patch
restriction operators (`patch_assembly`) and the application of the smoother
(`SchwarzSmoother::Mult`).

Conventions of the embedding:

* `int` indices (vertices, patches, DOFs, rows, columns) are natural numbers;
  none of the index computations of the file can overflow or go negative.  The
  result of `FindSorted`, which is a position or `-1`, is an integer.
* `double` values are rationals: every statement below is a statement of exact
  arithmetic.
* `Array<int>` and `std::vector` are lists; a read outside a container yields
  the empty list (or `0`) and a write outside a container is dropped.
* The mesh, the finite element space and the direct solver are collaborators
  of the file: what the source reads of them is taken as data (`Mesh`,
  `FiniteElementSpace`, `Hierarchy`, the solver functions of `SchwarzSmoother`).
* The array, vector and sparse matrix classes are not part of the file either;
  the methods the source calls are modelled, each under a comment that says so.
-/

namespace Schwarz

/-! ## `Array<int>` -/

/-- Modelled from the spec: the method `Array<int>::Sort` of the array class,
the "sorted" of the sorted-unique union; it sorts the array in ascending order. -/
def Array_Sort (a : List Nat) : List Nat :=
  a.insertionSort (fun x y => x ≤ y)

/-- Modelled from the spec: the method `Array<int>::Unique` of the array class,
the "unique" of the sorted-unique union; as `std::unique` does, it keeps the first
element of every run of equal consecutive elements. -/
def Array_Unique : List Nat → List Nat
  | [] => []
  | [a] => [a]
  | a :: b :: t => if a = b then Array_Unique (b :: t) else a :: Array_Unique (b :: t)

/-! ## Sparse matrices -/

/-- Modelled from the spec: the class `SparseMatrix` of the matrix library, a
sparse matrix given by its dimensions and its stored entries
`(row, column, value)`.  The entries of one row, in list order, are the storage
order of that row. -/
structure SparseMatrix where
  height : Nat
  width : Nat
  entries : List (Nat × Nat × ℚ)

namespace SparseMatrix

/-- Modelled from the spec: the constructor `SparseMatrix(nrows)`, an empty
square matrix with `nrows` rows and columns. -/
def square (nrows : Nat) : SparseMatrix :=
  { height := nrows, width := nrows, entries := [] }

/-- Modelled from the spec: the stored `(column, value)` pairs of row `i`, in
storage order. -/
def rowEntries (M : SparseMatrix) (i : Nat) : List (Nat × ℚ) :=
  (M.entries.filter (fun e => decide (e.1 = i))).map (fun e => e.2)

/-- Modelled from the spec: the method `RowSize(i)`, the number of stored
entries of row `i`. -/
def RowSize (M : SparseMatrix) (i : Nat) : Nat :=
  (M.rowEntries i).length

/-- Modelled from the spec: the method `GetRowColumns(i)`, the column indices of
row `i` as stored. -/
def GetRowColumns (M : SparseMatrix) (i : Nat) : List Nat :=
  (M.rowEntries i).map (fun e => e.1)

/-- Modelled from the spec: the entry `(i, j)` of the matrix, the value of the
first stored entry of row `i` with column `j`, and `0` when there is none. -/
def Elem (M : SparseMatrix) (i j : Nat) : ℚ :=
  match (M.rowEntries i).find? (fun e => decide (e.1 = j)) with
  | some e => e.2
  | none => 0

/-- Modelled from the spec: the method `Threshold(tol)`, the "hard
zero-threshold" of the composed operator; it keeps the stored entries whose
absolute value is greater than `|tol|` and drops the others. -/
def Threshold (M : SparseMatrix) (tol : ℚ) : SparseMatrix :=
  { M with entries := M.entries.filter (fun e => decide (|e.2.2| > |tol|)) }

/-- Modelled from the spec: the method `Set(i, j, val)`, which makes `val` the
entry `(i, j)`; it overwrites the stored entry `(i, j)` when there is one, and
otherwise stores a new entry at the head of the row. -/
def Set (M : SparseMatrix) (i j : Nat) (val : ℚ) : SparseMatrix :=
  if M.entries.any (fun e => decide (e.1 = i ∧ e.2.1 = j)) then
    { M with entries :=
        M.entries.map (fun e => if e.1 = i ∧ e.2.1 = j then (i, j, val) else e) }
  else
    { M with entries := (i, j, val) :: M.entries }

/-- Modelled from the spec: the method `SetWidth(newWidth)`, which fixes the
column count. -/
def SetWidth (M : SparseMatrix) (newWidth : Nat) : SparseMatrix :=
  { M with width := newWidth }

/-- Modelled from the spec: the method `Finalize()`, which finalizes the sparse
structure; stored zeros are dropped. -/
def Finalize (M : SparseMatrix) : SparseMatrix :=
  { M with entries := M.entries.filter (fun e => decide (e.2.2 ≠ 0)) }

/-- Modelled from the spec: the method `NumCols()`, the column count. -/
def NumCols (M : SparseMatrix) : Nat := M.width

/-- Modelled from the spec: the method `MultTranspose(x, y)` for an output
vector of size `n`; `y = Mᵀ x`, that is `y[j]` is the sum of `val * x[i]` over the
stored `(i, j, val)`. -/
def MultTranspose (M : SparseMatrix) (x : List ℚ) (n : Nat) : List ℚ :=
  (List.range n).map (fun j =>
    ((M.entries.filter (fun e => decide (e.2.1 = j))).map (fun e => e.2.2 * x.getD e.1 0)).sum)

/-- Modelled from the spec: the method `Mult(x, y)` for an output vector of
size `n`; `y = M x`, that is `y[i]` is the sum of `val * x[j]` over the stored
`(i, j, val)`. -/
def Mult (M : SparseMatrix) (x : List ℚ) (n : Nat) : List ℚ :=
  (List.range n).map (fun i =>
    ((M.entries.filter (fun e => decide (e.1 = i))).map (fun e => e.2.2 * x.getD e.2.1 0)).sum)

end SparseMatrix

/-- Modelled from the spec: one accumulation of the sparse product, which adds
`val` to the accumulator of column `j` of a row under construction; a column seen
for the first time is stored after the others. -/
def addTo : List (Nat × ℚ) → Nat → ℚ → List (Nat × ℚ)
  | [], j, val => [(j, val)]
  | (c, a) :: t, j, val => if c = j then (c, a + val) :: t else (c, a) :: addTo t j val

/-- Modelled from the spec: row `i` of the sparse product `A · B`; every stored
`a` at `(i, k)` of `A` meets every stored `b` at `(k, j)` of `B`, and `a * b` is
accumulated at column `j`. -/
def prodRow (A B : SparseMatrix) (i : Nat) : List (Nat × ℚ) :=
  (A.rowEntries i).foldl
    (fun acc ka => (B.rowEntries ka.1).foldl (fun acc jb => addTo acc jb.1 (ka.2 * jb.2)) acc)
    []

/-- Modelled from the spec: the sparse matrix product `mfem::Mult(A, B)` of the
matrix library is not part of this file; it is the standard row-by-row sparse
product `A · B`, which stores an entry for every structural nonzero. -/
def Mult (A B : SparseMatrix) : SparseMatrix :=
  { height := A.height
    width := B.width
    entries := (List.range A.height).flatMap
      (fun i => (prodRow A B i).map (fun e => (i, e.1, e.2))) }

/-! ## The mesh and the refinement hierarchy -/

/-- What the source reads of a `Mesh`: the entity counts and the vertices of
every edge, face and element. -/
structure Mesh where
  /-- Method `GetNV()`. -/
  nv : Nat
  /-- Method `GetNEdges()`. -/
  nedges : Nat
  /-- Method `GetNFaces()`. -/
  nfaces : Nat
  /-- Method `GetNE()`. -/
  ne : Nat
  /-- Method `GetEdgeVertices(ie, ·)`. -/
  edgeVertices : Nat → List Nat
  /-- Method `GetFaceVertices(ifc, ·)`. -/
  faceVertices : Nat → List Nat
  /-- Method `GetElementVertices(iel, ·)`. -/
  elementVertices : Nat → List Nat

/-- The refinement machinery used by `patch_nod_info`: `UniformRefinement`
maps a mesh to its refinement, and `GetTransferOperator coarse fine` is the
prolongation of the lowest order H1 space from `coarse` to `fine`. -/
structure Hierarchy where
  UniformRefinement : Mesh → Mesh
  GetTransferOperator : Mesh → Mesh → SparseMatrix

/-! ## `patch_nod_info` -/

/-- The class `patch_nod_info`. -/
structure patch_nod_info where
  nrpatch : Nat
  ref_levels : Int
  /-- the mesh after the refinements -/
  mesh : Mesh
  vertex_contr : List (List Nat)
  edge_contr : List (List Nat)
  face_contr : List (List Nat)
  elem_contr : List (List Nat)

/-- The refinement loop (lines 36-55), run `n` more times from the state
`(mesh, Pr)`; `Pr = none` is the null pointer. -/
def refineLoop (H : Hierarchy) : Nat → Mesh × Option SparseMatrix → Mesh × Option SparseMatrix
  | 0, st => st
  | n + 1, (mesh, Pr) =>
    let fine := H.UniformRefinement mesh
    let P := H.GetTransferOperator mesh fine
    match Pr with
    | none => refineLoop H n (fine, some P)
    | some T => refineLoop H n (fine, some (Mult P T))

/-- The contribution set of one edge, face or element with vertices `verts`
(lines 78-83): the sets of the vertices are appended, then `Sort` and `Unique`. -/
def entityContr (vertex_contr : List (List Nat)) (verts : List Nat) : List Nat :=
  Array_Unique (Array_Sort (verts.foldl (fun acc ivert => acc ++ vertex_contr.getD ivert []) []))

/-- The constructor `patch_nod_info::patch_nod_info`.  It returns `none` when
the composed prolongation `Pr` is still the null pointer at
`Pr->Threshold(0.0)`. -/
def patch_nod_info.new (H : Hierarchy) (mesh_ : Mesh) (ref_levels_ : Int)
    (_ess_dof_list : List Nat) : Option patch_nod_info :=
  let nrpatch := mesh_.nv
  match refineLoop H ref_levels_.toNat (mesh_, none) with
  | (_, none) => none
  | (mesh, some Pr0) =>
    let Pr := Pr0.Threshold 0
    let nvert := mesh.nv
    let vertex_contr := (List.range nvert).map (fun iv =>
      let nz := Pr.RowSize iv
      let col := Pr.GetRowColumns iv
      (List.range nz).map (fun i => col.getD i 0))
    let edge_contr := (List.range mesh.nedges).map
      (fun ie => entityContr vertex_contr (mesh.edgeVertices ie))
    let face_contr := (List.range mesh.nfaces).map
      (fun ifc => entityContr vertex_contr (mesh.faceVertices ifc))
    let elem_contr := (List.range mesh.ne).map
      (fun iel => entityContr vertex_contr (mesh.elementVertices iel))
    some { nrpatch := nrpatch, ref_levels := ref_levels_, mesh := mesh,
           vertex_contr := vertex_contr, edge_contr := edge_contr,
           face_contr := face_contr, elem_contr := elem_contr }

/-! ## `patch_assembly` -/

/-- What the source reads of a `FiniteElementSpace`: its mesh, its size and the
DOFs of every vertex and of the interior of every edge, face and element. -/
structure FiniteElementSpace where
  /-- Method `GetMesh()`. -/
  mesh : Mesh
  /-- Method `GetVSize()`. -/
  vsize : Nat
  /-- Method `GetVertexDofs(i, ·)`. -/
  vertexDofs : Nat → List Nat
  /-- Method `GetEdgeInteriorDofs(i, ·)`. -/
  edgeInteriorDofs : Nat → List Nat
  /-- Method `GetFaceInteriorDofs(i, ·)`. -/
  faceInteriorDofs : Nat → List Nat
  /-- Method `GetElementInteriorDofs(i, ·)`. -/
  elementInteriorDofs : Nat → List Nat

/-- The mutable state of the assembly: the matrices `Pid` under construction and
the column counters `dofoffset`. -/
structure AsmState where
  Pid : List SparseMatrix
  dofoffset : List Nat

/-- The innermost loop body: `Pid[k]->Set(m, dofoffset[k], 1.0); dofoffset[k]++`. -/
def appendDof (st : AsmState) (k m : Nat) : AsmState :=
  { Pid := st.Pid.modify (fun M => M.Set m (st.dofoffset.getD k 0) 1) k
    dofoffset := st.dofoffset.modify (fun c => c + 1) k }

/-- The two inner loops for one entity with contribution set `contr` and DOF list
`dofs`: for every `k` of `contr`, in order, every `m` of `dofs`, in order. -/
def entityPass (st : AsmState) (contr dofs : List Nat) : AsmState :=
  contr.foldl (fun st k => dofs.foldl (fun st m => appendDof st k m) st) st

/-- The loop over the `n` entities of one kind. -/
def kindPass (st : AsmState) (n : Nat) (contr : List (List Nat)) (dofs : Nat → List Nat) :
    AsmState :=
  (List.range n).foldl (fun st i => entityPass st (contr.getD i []) (dofs i)) st

/-- The state before the final loop (lines 127-217): the matrices are allocated
square of size `GetVSize()`, the counters start at zero, and the vertices, the
edges, the faces and the elements are traversed in this order. -/
def fillPid (patches : patch_nod_info) (fespace : FiniteElementSpace) : AsmState :=
  let nrpatch := patches.nrpatch
  let height := fespace.vsize
  let st0 : AsmState :=
    { Pid := List.replicate nrpatch (SparseMatrix.square height)
      dofoffset := List.replicate nrpatch 0 }
  let mesh := fespace.mesh
  let st1 := kindPass st0 mesh.nv patches.vertex_contr fespace.vertexDofs
  let st2 := kindPass st1 mesh.nedges patches.edge_contr fespace.edgeInteriorDofs
  let st3 := kindPass st2 mesh.nfaces patches.face_contr fespace.faceInteriorDofs
  kindPass st3 mesh.ne patches.elem_contr fespace.elementInteriorDofs

/-- The class `patch_assembly`. -/
structure patch_assembly where
  nrpatch : Nat
  ref_levels : Int
  Pid : List SparseMatrix

/-- The body of the constructor of `patch_assembly` once `patches` is built:
the filling of the matrices, then `SetWidth(dofoffset[i])` and `Finalize()` for
every patch. -/
def patch_assembly.build (patches : patch_nod_info) (ref_levels_ : Int)
    (fespace : FiniteElementSpace) : patch_assembly :=
  let st := fillPid patches fespace
  { nrpatch := patches.nrpatch
    ref_levels := ref_levels_
    Pid := List.zipWith (fun M w => (M.SetWidth w).Finalize) st.Pid st.dofoffset }

/-- The constructor `patch_assembly::patch_assembly`; it fails when the
construction of `patch_nod_info` does. -/
def patch_assembly.new (H : Hierarchy) (cmesh_ : Mesh) (ref_levels_ : Int)
    (fespace : FiniteElementSpace) (ess_dof_list : List Nat) : Option patch_assembly :=
  match patch_nod_info.new H cmesh_ ref_levels_ ess_dof_list with
  | none => none
  | some patches => some (patch_assembly.build patches ref_levels_ fespace)

/-! ## `SchwarzSmoother` -/

/-- The enumeration `Schwarz::SmootherType`. -/
inductive SmootherType where
  | ADDITIVE
  | MULTIPLICATIVE
  | SYM_MULTIPLICATIVE
  deriving DecidableEq

/-- Modelled from the spec: the assignment `z = 0.0` of the vector class; every
entry is set to zero, the size is kept. -/
def assignZero (z : List ℚ) : List ℚ :=
  z.map (fun _ => 0)

/-- Modelled from the spec: the update `z += v` of the vector class;
`z[i] += v[i]` for every index `i` of `z`. -/
def addAssign : List ℚ → List ℚ → List ℚ
  | [], _ => []
  | a :: z, [] => a :: z
  | a :: z, b :: v => (a + b) :: addAssign z v

/-- The class `SchwarzSmoother`: the restriction operators `P->Pid`, the local
matrices, the local solvers (`invA_local i` is the map `x ↦ y` of
`invA_local[i]->Mult(x, y)`) and the smoother kind. -/
structure SchwarzSmoother where
  nrpatch : Nat
  P : patch_assembly
  A_local : List SparseMatrix
  invA_local : Nat → List ℚ → List ℚ
  sType : SmootherType

namespace SchwarzSmoother

/-- The vector `zaux[i]` of one pass of the loop of `Mult` (lines 279-285):
restriction of the residual, local solve, prolongation of the local solution. -/
def zaux (S : SchwarzSmoother) (r : List ℚ) (i : Nat) : List ℚ :=
  let Pr := S.P.Pid.getD i (SparseMatrix.square 0)
  let res_local := Pr.MultTranspose r Pr.NumCols
  let sol_local := S.invA_local i res_local
  Pr.Mult sol_local r.length

/-- The loop of the additive branch over the patches of `order`, from `z`. -/
def additiveLoop (S : SchwarzSmoother) (r : List ℚ) (order : List Nat) (z : List ℚ) : List ℚ :=
  order.foldl (fun z i => addAssign z (S.zaux r i)) z

/-- The method `SchwarzSmoother::Mult(r, z)`; the result is the final `z`. -/
def Mult (S : SchwarzSmoother) (r z : List ℚ) : List ℚ :=
  let z0 := assignZero z
  match S.sType with
  | SmootherType.ADDITIVE => S.additiveLoop r (List.range S.nrpatch) z0
  | SmootherType.MULTIPLICATIVE => z0
  | SmootherType.SYM_MULTIPLICATIVE => z0

end SchwarzSmoother

/-! ## Construction of the smoother and the essential DOF test -/

/-- Modelled from the spec: the function `Transpose(A)` of the matrix library,
the matrix `Aᵀ`. -/
def Transpose (A : SparseMatrix) : SparseMatrix :=
  { height := A.width
    width := A.height
    entries := A.entries.map (fun e => (e.2.1, e.1, e.2.2)) }

/-- Modelled from the spec: the function `RAP(Rt, A, P)` of the matrix library,
the Galerkin product `Rtᵀ A P`, computed as `(Rtᵀ · A) · P`. -/
def RAP (Rt A P : SparseMatrix) : SparseMatrix :=
  Mult (Mult (Transpose Rt) A) P

/-- The constructor `SchwarzSmoother::SchwarzSmoother`.  The direct solver is a
collaborator: `UMFPackSolver M` is the map `x ↦ y` of the solver whose operator
is `M`.  The constructor does not assign the smoother kind, which is the
argument `sType_`.  It fails when the construction of `patch_assembly` does. -/
def SchwarzSmoother.new (H : Hierarchy) (UMFPackSolver : SparseMatrix → List ℚ → List ℚ)
    (sType_ : SmootherType) (cmesh_ : Mesh) (ref_levels_ : Int)
    (fespace_ : FiniteElementSpace) (A_ : SparseMatrix) (ess_dof_list : List Nat) :
    Option SchwarzSmoother :=
  match patch_assembly.new H cmesh_ ref_levels_ fespace_ ess_dof_list with
  | none => none
  | some P =>
    let nrpatch := P.nrpatch
    let A_local := (List.range nrpatch).map (fun i =>
      let Pr := P.Pid.getD i (SparseMatrix.square 0)
      RAP Pr A_ Pr)
    some { nrpatch := nrpatch
           P := P
           A_local := A_local
           invA_local := fun i => UMFPackSolver (A_local.getD i (SparseMatrix.square 0))
           sType := sType_ }

/-- Modelled from the spec: the loop of the binary search `std::lower_bound` on
the range of `count` elements of `a` that starts at `first`.  The loop halves
`count` at every pass, so it runs at most `count` times: `fuel` bounds the number
of passes. -/
def lowerBoundLoop (a : List Nat) (value : Nat) : Nat → Nat → Nat → Nat
  | 0, first, _ => first
  | fuel + 1, first, count =>
    if count = 0 then first
    else
      let step := count / 2
      let it := first + step
      if a.getD it 0 < value then lowerBoundLoop a value fuel (it + 1) (count - (step + 1))
      else lowerBoundLoop a value fuel first step

/-- Modelled from the spec: the binary search `std::lower_bound` over the whole
array; on an ascending array it returns the first position whose element is not
less than `value`, and the size of the array when there is none. -/
def lower_bound (a : List Nat) (value : Nat) : Nat :=
  lowerBoundLoop a value a.length 0 a.length

/-- Modelled from the spec: the method `Array<int>::FindSorted(el)` of the
array class, the membership test on a sorted list; it returns the position found
by the binary search when the element there is `el`, and `-1` otherwise. -/
def FindSorted (a : List Nat) (el : Nat) : Int :=
  let first := lower_bound a el
  if first = a.length ∨ ¬ (a.getD first 0 = el) then -1 else (first : Int)

/-- The method `SchwarzSmoother::IsEssential`. -/
def SchwarzSmoother.IsEssential (idof : Nat) (ess_dof_list : List Nat) : Bool :=
  let found := FindSorted ess_dof_list idof
  !(decide (found = -1))

/-! ## The composed prolongation, level by level -/

/-- The mesh after `i` uniform refinements of `mesh`. -/
def levelMesh (H : Hierarchy) (mesh : Mesh) : Nat → Mesh
  | 0 => mesh
  | i + 1 => H.UniformRefinement (levelMesh H mesh i)

/-- The prolongation `P_i` obtained at the `i`-th refinement (`i ≥ 1`): from
the space on the mesh refined `i - 1` times to the space on the mesh refined `i`
times. -/
def levelP (H : Hierarchy) (mesh : Mesh) (i : Nat) : SparseMatrix :=
  H.GetTransferOperator (levelMesh H mesh (i - 1)) (levelMesh H mesh i)

/-- The product `P_(n+1) * (P_n * ( ... * P_1))`, accumulated from the right:
`P_1` for `n = 0`, and `P_(n+2)` times the product of the levels below. -/
def composedP (H : Hierarchy) (mesh : Mesh) : Nat → SparseMatrix
  | 0 => levelP H mesh 1
  | n + 1 => Mult (levelP H mesh (n + 2)) (composedP H mesh n)

/-! ## The values of a sparse matrix -/

/-- The entry `(i, j)` of the matrix that the storage represents: the stored
values at `(i, j)` add up, as they do in every product of the matrix. -/
def SparseMatrix.value (M : SparseMatrix) (i j : Nat) : ℚ :=
  ((M.entries.filter (fun e => decide (e.1 = i ∧ e.2.1 = j))).map (fun e => e.2.2)).sum

/-- The matrix is symmetric: the entries `(i, j)` and `(j, i)` are equal. -/
def SparseMatrix.IsSymmetric (M : SparseMatrix) : Prop :=
  ∀ i j, M.value i j = M.value j i

/-- The sum of `val * f column` over the `(column, value)` pairs of a row. -/
def wsum (row : List (Nat × ℚ)) (f : Nat → ℚ) : ℚ :=
  (row.map (fun e => e.2 * f e.1)).sum

/-! ## The sequence of `Set` calls -/

/-- The calls `Pid[k]->Set(m, dofoffset[k], 1.0)` made for one entity, as pairs
`(k, m)` in the order of execution. -/
def entityCalls (contr dofs : List Nat) : List (Nat × Nat) :=
  contr.flatMap (fun k => dofs.map (fun m => (k, m)))

/-- The calls made by the loop over the `n` entities of one kind. -/
def kindCalls (n : Nat) (contr : List (List Nat)) (dofs : Nat → List Nat) : List (Nat × Nat) :=
  (List.range n).flatMap (fun i => entityCalls (contr.getD i []) (dofs i))

/-- All the calls of the constructor of `patch_assembly`, in the order of
execution. -/
def setCalls (patches : patch_nod_info) (fespace : FiniteElementSpace) : List (Nat × Nat) :=
  kindCalls fespace.mesh.nv patches.vertex_contr fespace.vertexDofs ++
  kindCalls fespace.mesh.nedges patches.edge_contr fespace.edgeInteriorDofs ++
  kindCalls fespace.mesh.nfaces patches.face_contr fespace.faceInteriorDofs ++
  kindCalls fespace.mesh.ne patches.elem_contr fespace.elementInteriorDofs

/-- The global DOFs appended to patch `k`, in the order of the calls: the DOF
appended for column `c` of `Pid[k]` is the one at position `c`. -/
def appendedDofs (patches : patch_nod_info) (fespace : FiniteElementSpace) (k : Nat) : List Nat :=
  ((setCalls patches fespace).filter (fun km => decide (km.1 = k))).map (fun km => km.2)

/-- The stored entries of a matrix whose columns `c, c + 1, ...` select the DOFs
`dofs`: a single `1` per column; the last column is stored first. -/
def selection : Nat → List Nat → List (Nat × Nat × ℚ)
  | _, [] => []
  | c, m :: ms => selection (c + 1) ms ++ [(m, c, 1)]

/-- The row of the nonzero entry of column `c`, when there is one. -/
def SparseMatrix.columnRow (M : SparseMatrix) (c : Nat) : Option Nat :=
  (M.entries.find? (fun e => decide (e.2.1 = c ∧ e.2.2 ≠ 0))).map (fun e => e.1)

/-- The DOFs of the entities of one kind whose contribution set contains `k`,
by ascending entity index. -/
def kindDofs (k n : Nat) (contr : List (List Nat)) (dofs : Nat → List Nat) : List Nat :=
  (List.range n).flatMap (fun i => if k ∈ contr.getD i [] then dofs i else [])

/-- The DOFs assigned to patch `k`: vertex DOFs, then edge-interior, then
face-interior, then element-interior DOFs. -/
def patchDofs (patches : patch_nod_info) (fespace : FiniteElementSpace) (k : Nat) : List Nat :=
  kindDofs k fespace.mesh.nv patches.vertex_contr fespace.vertexDofs ++
  kindDofs k fespace.mesh.nedges patches.edge_contr fespace.edgeInteriorDofs ++
  kindDofs k fespace.mesh.nfaces patches.face_contr fespace.faceInteriorDofs ++
  kindDofs k fespace.mesh.ne patches.elem_contr fespace.elementInteriorDofs

/-- No contribution set lists a patch twice. -/
def NoRepeat (patches : patch_nod_info) : Prop :=
  ∀ s, s ∈ patches.vertex_contr ++ patches.edge_contr ++ patches.face_contr ++
    patches.elem_contr → s.Nodup

/-- The state after one call `(k, m)`. -/
def stepCall (st : AsmState) (km : Nat × Nat) : AsmState := appendDof st km.1 km.2

/-- All the DOFs enumerated by the entities of the mesh of the space, in the
order of the traversal: a DOF is listed once for every time an entity lists it. -/
def allDofs (fespace : FiniteElementSpace) : List Nat :=
  (List.range fespace.mesh.nv).flatMap fespace.vertexDofs ++
  (List.range fespace.mesh.nedges).flatMap fespace.edgeInteriorDofs ++
  (List.range fespace.mesh.nfaces).flatMap fespace.faceInteriorDofs ++
  (List.range fespace.mesh.ne).flatMap fespace.elementInteriorDofs

/-- Every call `Pid[k]->Set(m, dofoffset[k], 1.0)` of the sequence `calls`,
executed from the state `st`, writes inside a matrix that exists and was
allocated with `height` rows and `height` columns: `k` is below the number of
matrices, and the row `m` and the column `dofoffset[k]` are below `height`. -/
def WritesInBounds (height : Nat) : AsmState → List (Nat × Nat) → Prop
  | _, [] => True
  | st, km :: calls =>
    (km.1 < st.Pid.length ∧ km.2 < height ∧ st.dofoffset.getD km.1 0 < height) ∧
      WritesInBounds height (stepCall st km) calls

/-- The effect of one call for patch `k` on the pair `(Pid[k], dofoffset[k])`. -/
def localStep (Mc : SparseMatrix × Nat) (m : Nat) : SparseMatrix × Nat :=
  (Mc.1.Set m Mc.2 1, Mc.2 + 1)

/-- The matrix `M` selects the DOFs `dofs`: it has one column per DOF of the
list, and column `c` has exactly one stored entry, of value `1`, in the row of the
DOF at position `c`; every other entry of the column is `0`. -/
def SelectsDofs (M : SparseMatrix) (dofs : List Nat) : Prop :=
  M.width = dofs.length ∧
  ∀ c, c < M.width →
    ∃ m, dofs[c]? = some m ∧
      M.entries.filter (fun e => decide (e.2.1 = c)) = [(m, c, 1)] ∧
      ∀ i, M.Elem i c = if i = m then 1 else 0

/-- The total length of the DOF lists of the entities of one kind whose
contribution set contains `k`. -/
def kindCount (k n : Nat) (contr : List (List Nat)) (dofs : Nat → List Nat) : Nat :=
  (((List.range n).filter (fun i => decide (k ∈ contr.getD i []))).map
    (fun i => (dofs i).length)).sum

/-- The list `s` is the sorted-unique union of the contribution sets of the
vertices `verts`: it is strictly ascending, and `k` is in it exactly when `k` is in
`vertex_contr[v]` for at least one `v` of `verts`. -/
def IsSortedUnion (vertex_contr : List (List Nat)) (verts : List Nat) (s : List Nat) : Prop :=
  s.Sorted (fun a b => a < b) ∧ ∀ k, k ∈ s ↔ ∃ v ∈ verts, k ∈ vertex_contr.getD v []

/-! ## Concrete data -/

/-- A mesh of one segment: two vertices, one edge, one element. -/
def exCoarse : Mesh :=
  { nv := 2, nedges := 1, nfaces := 0, ne := 1
    edgeVertices := fun _ => [0, 1]
    faceVertices := fun _ => []
    elementVertices := fun _ => [0, 1] }

/-- The refinement of `exCoarse`: the midpoint is vertex `2`. -/
def exFine : Mesh :=
  { nv := 3, nedges := 2, nfaces := 0, ne := 2
    edgeVertices := fun i => if i = 0 then [0, 2] else [2, 1]
    faceVertices := fun _ => []
    elementVertices := fun i => if i = 0 then [0, 2] else [2, 1] }

/-- The linear prolongation from `exCoarse` to `exFine`; the row of the midpoint
is stored with column `1` before column `0`. -/
def exP : SparseMatrix :=
  { height := 3, width := 2
    entries := [(0, 0, 1), (1, 1, 1), (2, 1, 1 / 2), (2, 0, 1 / 2)] }

/-- A hierarchy whose refinement of any mesh is `exFine`, with prolongation `exP`. -/
def exH : Hierarchy :=
  { UniformRefinement := fun _ => exFine
    GetTransferOperator := fun _ _ => exP }

/-- The contribution sets computed from `exH` and `exCoarse` with one refinement. -/
def exInfo : patch_nod_info :=
  { nrpatch := 2, ref_levels := 1, mesh := exFine
    vertex_contr := [[0], [1], [1, 0]]
    edge_contr := [[0, 1], [0, 1]]
    face_contr := []
    elem_contr := [[0, 1], [0, 1]] }

/-- Quadratic elements on `exFine`: one DOF per vertex and one per edge. -/
def exSpace : FiniteElementSpace :=
  { mesh := exFine, vsize := 5
    vertexDofs := fun i => [i]
    edgeInteriorDofs := fun i => [3 + i]
    faceInteriorDofs := fun _ => []
    elementInteriorDofs := fun _ => [] }

/-- A smoother on the restriction operators of `exInfo` and `exSpace` whose local
solvers double their argument. -/
def exSmoother : SchwarzSmoother :=
  { nrpatch := 2
    P := patch_assembly.build exInfo 1 exSpace
    A_local := []
    invA_local := fun _ x => x.map (fun a => 2 * a)
    sType := SmootherType.ADDITIVE }

/-- A symmetric matrix on the five DOFs of `exSpace`. -/
def exA : SparseMatrix :=
  { height := 5, width := 5
    entries := [(0, 0, 2), (0, 3, -1), (3, 0, -1), (1, 1, 2), (2, 2, 2), (3, 3, 2), (4, 4, 2)] }

/-- The smoother that the constructor builds from `exH`, `exCoarse`, one
refinement, `exSpace` and `exA`, with solvers that return their argument. -/
def exNewSmoother : SchwarzSmoother :=
  { nrpatch := 2
    P := patch_assembly.build exInfo 1 exSpace
    A_local := (List.range 2).map (fun i =>
      RAP ((patch_assembly.build exInfo 1 exSpace).Pid.getD i (SparseMatrix.square 0)) exA
        ((patch_assembly.build exInfo 1 exSpace).Pid.getD i (SparseMatrix.square 0)))
    invA_local := fun _ x => x
    sType := SmootherType.ADDITIVE }

/-- The smoother `exSmoother` with the kind `MULTIPLICATIVE`. -/
def exMultiplicative : SchwarzSmoother :=
  { exSmoother with sType := SmootherType.MULTIPLICATIVE }

/-! ## Contribution sets of edges, faces and elements -/

theorem mem_Array_Unique (k : Nat) : ∀ l : List Nat, k ∈ Array_Unique l ↔ k ∈ l
  | [] => by simp [Array_Unique]
  | [a] => by simp [Array_Unique]
  | a :: b :: t => by
    have ih := mem_Array_Unique k (b :: t)
    unfold Array_Unique
    split
    · rename_i hab
      subst hab
      rw [ih]
      simp
    · simp only [List.mem_cons] at ih ⊢
      rw [ih]

theorem sorted_Array_Unique : ∀ l : List Nat, l.Sorted (fun a b => a ≤ b) →
    (Array_Unique l).Sorted (fun a b => a < b)
  | [], _ => by simp [Array_Unique]
  | [a], _ => by simp [Array_Unique]
  | a :: b :: t, h => by
    have hs : (b :: t).Sorted (fun a b => a ≤ b) := List.Sorted.of_cons h
    have ih := sorted_Array_Unique (b :: t) hs
    unfold Array_Unique
    split
    · exact ih
    · rename_i hab
      refine List.sorted_cons.mpr ⟨?_, ih⟩
      intro c hc
      have hc2 : c ∈ b :: t := (mem_Array_Unique c (b :: t)).mp hc
      have hab2 : a ≤ b := List.rel_of_sorted_cons h b (List.mem_cons_self _ _)
      have hbc : b ≤ c := by
        rcases List.mem_cons.mp hc2 with rfl | hct
        · exact le_rfl
        · exact List.rel_of_sorted_cons hs c hct
      omega

theorem mem_foldl_append (vc : List (List Nat)) (k : Nat) :
    ∀ (verts : List Nat) (init : List Nat),
      k ∈ verts.foldl (fun acc ivert => acc ++ vc.getD ivert []) init ↔
        k ∈ init ∨ ∃ v ∈ verts, k ∈ vc.getD v []
  | [], init => by simp
  | v :: vs, init => by
    simp only [List.foldl_cons]
    rw [mem_foldl_append vc k vs]
    simp only [List.mem_append, List.mem_cons, exists_eq_or_imp]
    tauto

theorem entityContr_isSortedUnion (vc : List (List Nat)) (verts : List Nat) :
    IsSortedUnion vc verts (entityContr vc verts) := by
  constructor
  · exact sorted_Array_Unique _ (List.sorted_insertionSort _ _)
  · intro k
    unfold entityContr Array_Sort
    rw [mem_Array_Unique, List.mem_insertionSort, mem_foldl_append]
    simp

/-- C1: for every edge, face and element of the refined mesh, the contribution
set built by `patch_nod_info` (`edge_contr`, `face_contr`, `elem_contr`) is the
sorted-unique union of `vertex_contr[v]` over the vertices `v` of the entity: it
is strictly ascending, and a patch index `k` is in it if and only if `k` is in
`vertex_contr[v]` for at least one vertex `v` of the entity. -/
theorem entity_contr_sorted_union (H : Hierarchy) (mesh_ : Mesh) (ref_levels_ : Int)
    (ess_dof_list : List Nat) (info : patch_nod_info)
    (hnew : patch_nod_info.new H mesh_ ref_levels_ ess_dof_list = some info) :
    (info.edge_contr.length = info.mesh.nedges ∧
      ∀ ie, ie < info.mesh.nedges →
        IsSortedUnion info.vertex_contr (info.mesh.edgeVertices ie) (info.edge_contr.getD ie [])) ∧
    (info.face_contr.length = info.mesh.nfaces ∧
      ∀ ifc, ifc < info.mesh.nfaces →
        IsSortedUnion info.vertex_contr (info.mesh.faceVertices ifc)
          (info.face_contr.getD ifc [])) ∧
    (info.elem_contr.length = info.mesh.ne ∧
      ∀ iel, iel < info.mesh.ne →
        IsSortedUnion info.vertex_contr (info.mesh.elementVertices iel)
          (info.elem_contr.getD iel [])) := by
  unfold patch_nod_info.new at hnew
  split at hnew
  · exact absurd hnew (by simp)
  · simp only [Option.some.injEq] at hnew
    subst hnew
    simp only [List.length_map, List.length_range, true_and]
    refine ⟨?_, ?_, ?_⟩ <;>
    · intro i hi
      rw [List.getD_eq_getElem?_getD, List.getElem?_map, List.getElem?_range hi]
      exact entityContr_isSortedUnion _ _

/-! ## The restriction operators -/

theorem foldl_flatMap_eq {α β γ : Type} (f : α → List β) (g : γ → β → γ) :
    ∀ (l : List α) (b : γ),
      (l.flatMap f).foldl g b = l.foldl (fun b a => (f a).foldl g b) b
  | [], b => by simp
  | a :: l, b => by
    simp only [List.flatMap_cons, List.foldl_append, List.foldl_cons]
    exact foldl_flatMap_eq f g l _

theorem entityPass_eq_calls (st : AsmState) (contr dofs : List Nat) :
    entityPass st contr dofs = (entityCalls contr dofs).foldl stepCall st := by
  unfold entityPass entityCalls
  rw [foldl_flatMap_eq]
  congr 1
  funext st k
  rw [List.foldl_map]
  rfl

theorem kindPass_eq_calls (st : AsmState) (n : Nat) (contr : List (List Nat))
    (dofs : Nat → List Nat) :
    kindPass st n contr dofs = (kindCalls n contr dofs).foldl stepCall st := by
  unfold kindPass kindCalls
  rw [foldl_flatMap_eq]
  congr 1
  funext st i
  exact entityPass_eq_calls _ _ _

theorem fillPid_eq_calls (patches : patch_nod_info) (fespace : FiniteElementSpace) :
    fillPid patches fespace =
      (setCalls patches fespace).foldl stepCall
        { Pid := List.replicate patches.nrpatch (SparseMatrix.square fespace.vsize)
          dofoffset := List.replicate patches.nrpatch 0 } := by
  unfold fillPid setCalls
  simp only [kindPass_eq_calls, List.foldl_append]

theorem foldl_stepCall_get (k : Nat) :
    ∀ (calls : List (Nat × Nat)) (st : AsmState) (M : SparseMatrix) (c : Nat),
      st.Pid[k]? = some M → st.dofoffset[k]? = some c →
      ((calls.foldl stepCall st).Pid[k]? =
          some ((((calls.filter (fun km => decide (km.1 = k))).map (fun km => km.2)).foldl
            localStep (M, c)).1) ∧
        (calls.foldl stepCall st).dofoffset[k]? =
          some ((((calls.filter (fun km => decide (km.1 = k))).map (fun km => km.2)).foldl
            localStep (M, c)).2))
  | [], st, M, c, hM, hc => by simpa using ⟨hM, hc⟩
  | (k', m) :: calls, st, M, c, hM, hc => by
    simp only [List.foldl_cons]
    by_cases hk : k' = k
    · subst hk
      have h1 : (stepCall st (k', m)).Pid[k']? = some (M.Set m c 1) := by
        simp [stepCall, appendDof, List.getElem?_modify, hM, List.getD_eq_getElem?_getD, hc]
      have h2 : (stepCall st (k', m)).dofoffset[k']? = some (c + 1) := by
        simp [stepCall, appendDof, List.getElem?_modify, hc]
      have := foldl_stepCall_get k' calls _ _ _ h1 h2
      simpa [localStep] using this
    · have h1 : (stepCall st (k', m)).Pid[k]? = some M := by
        simp [stepCall, appendDof, List.getElem?_modify, hM, hk]
      have h2 : (stepCall st (k', m)).dofoffset[k]? = some c := by
        simp [stepCall, appendDof, List.getElem?_modify, hc, hk]
      have := foldl_stepCall_get k calls _ _ _ h1 h2
      simpa [hk] using this

theorem foldl_localStep (ms : List Nat) :
    ∀ (M : SparseMatrix) (c : Nat), (∀ e ∈ M.entries, e.2.1 < c) →
      ms.foldl localStep (M, c) =
        ({ M with entries := selection c ms ++ M.entries }, c + ms.length) := by
  induction ms with
  | nil => intro M c _; simp [selection]
  | cons m ms ih =>
    intro M c hfresh
    simp only [List.foldl_cons]
    have hno : M.entries.any (fun e => decide (e.1 = m ∧ e.2.1 = c)) = false := by
      rw [List.any_eq_false]
      intro e he
      have := hfresh e he
      simp
      omega
    have hset : M.Set m c 1 = { M with entries := (m, c, 1) :: M.entries } := by
      unfold SparseMatrix.Set
      rw [hno]
      simp
    have : localStep (M, c) m = ({ M with entries := (m, c, 1) :: M.entries }, c + 1) := by
      simp [localStep, hset]
    rw [this, ih]
    · simp [selection]
      omega
    · intro e he
      simp only [List.mem_cons] at he
      rcases he with rfl | he
      · simp
      · have := hfresh e he
        omega

theorem selection_values (ms : List Nat) : ∀ (c : Nat) e, e ∈ selection c ms → e.2.2 = 1 ∧ c ≤ e.2.1 := by
  induction ms with
  | nil => intro c e he; simp [selection] at he
  | cons m ms ih =>
    intro c e he
    simp only [selection, List.mem_append, List.mem_singleton] at he
    rcases he with he | rfl
    · have := ih (c + 1) e he
      exact ⟨this.1, by omega⟩
    · simp

theorem selection_filter_ne_zero (c : Nat) (ms : List Nat) :
    (selection c ms).filter (fun e => decide (e.2.2 ≠ 0)) = selection c ms := by
  rw [List.filter_eq_self]
  intro e he
  simp [(selection_values ms c e he).1]

/-- the closed form of the restriction operator of patch `k` -/
theorem build_Pid_get (patches : patch_nod_info) (ref_levels_ : Int)
    (fespace : FiniteElementSpace) (k : Nat) (hk : k < patches.nrpatch) :
    (patch_assembly.build patches ref_levels_ fespace).Pid[k]? =
      some { height := fespace.vsize
             width := (appendedDofs patches fespace k).length
             entries := selection 0 (appendedDofs patches fespace k) } := by
  have h0 := foldl_stepCall_get k (setCalls patches fespace)
    { Pid := List.replicate patches.nrpatch (SparseMatrix.square fespace.vsize)
      dofoffset := List.replicate patches.nrpatch 0 }
    (SparseMatrix.square fespace.vsize) 0
    (by simp [List.getElem?_replicate, hk]) (by simp [List.getElem?_replicate, hk])
  rw [← fillPid_eq_calls] at h0
  rw [foldl_localStep _ _ _ (by simp [SparseMatrix.square])] at h0
  obtain ⟨h1, h2⟩ := h0
  unfold patch_assembly.build
  simp only [List.getElem?_zipWith, h1, h2]
  simp only [SparseMatrix.SetWidth, SparseMatrix.Finalize, SparseMatrix.square, appendedDofs,
    List.append_nil, selection_filter_ne_zero, Nat.zero_add]

theorem selection_find (p : Nat × Nat × ℚ → Bool) (q : Nat → Bool) (j : Nat)
    (hp : ∀ m c, p (m, c, 1) = (q m && decide (c = j))) (ms : List Nat) :
    ∀ c : Nat, (selection c ms).find? p =
      if c ≤ j then ((ms[j - c]?).filter q).map (fun m => (m, j, 1)) else none := by
  induction ms with
  | nil => intro c; simp [selection]
  | cons m ms ih =>
    intro c
    simp only [selection, List.find?_append, ih (c + 1), List.find?_cons, hp, List.find?_nil]
    rcases Nat.lt_trichotomy j c with h | h | h
    · have h1 : ¬ c + 1 ≤ j := by omega
      have h2 : ¬ c ≤ j := by omega
      have h3 : ¬ c = j := by omega
      simp [h1, h2, h3]
    · subst h
      cases hq : q m <;> simp [hq, Option.filter]
    · have h1 : c + 1 ≤ j := by omega
      have h2 : c ≤ j := by omega
      have h3 : ¬ c = j := by omega
      obtain ⟨d, rfl⟩ : ∃ d, j = c + 1 + d := ⟨j - (c + 1), by omega⟩
      have e1 : c + 1 + d - (c + 1) = d := by omega
      have e2 : c + 1 + d - c = d + 1 := by omega
      simp [h1, h2, h3, e1, e2]

theorem selection_filter_col (j : Nat) (ms : List Nat) :
    ∀ c : Nat, (selection c ms).filter (fun e => decide (e.2.1 = j)) =
      if c ≤ j then ((ms[j - c]?).map (fun m => (m, j, (1 : ℚ)))).toList else [] := by
  induction ms with
  | nil => intro c; simp [selection]
  | cons m ms ih =>
    intro c
    simp only [selection, List.filter_append, ih (c + 1)]
    rcases Nat.lt_trichotomy j c with h | h | h
    · have h1 : ¬ c + 1 ≤ j := by omega
      have h2 : ¬ c ≤ j := by omega
      have h3 : ¬ c = j := by omega
      simp [h1, h2, h3, List.filter_cons]
    · subst h
      simp [List.filter_cons]
    · have h1 : c + 1 ≤ j := by omega
      have h2 : c ≤ j := by omega
      have h3 : ¬ c = j := by omega
      obtain ⟨d, rfl⟩ : ∃ d, j = c + 1 + d := ⟨j - (c + 1), by omega⟩
      have e1 : c + 1 + d - (c + 1) = d := by omega
      have e2 : c + 1 + d - c = d + 1 := by omega
      simp [h1, h2, h3, e1, e2, List.filter_cons]

theorem selection_Elem (h w : Nat) (ms : List Nat) (i j : Nat) :
    SparseMatrix.Elem { height := h, width := w, entries := selection 0 ms } i j =
      if ms[j]? = some i then 1 else 0 := by
  unfold SparseMatrix.Elem SparseMatrix.rowEntries
  simp only [List.find?_map, List.find?_filter]
  rw [selection_find _ (fun m => decide (m = i)) j (by intro m c; simp [Function.comp]) ms 0]
  simp only [Nat.zero_le, if_true, Nat.sub_zero]
  cases hms : ms[j]? with
  | none => simp [Option.filter]
  | some m =>
    by_cases hmi : m = i
    · simp [Option.filter, hmi]
    · simp [Option.filter, hmi]

theorem selection_columnRow (h w : Nat) (ms : List Nat) (j : Nat) :
    SparseMatrix.columnRow { height := h, width := w, entries := selection 0 ms } j = ms[j]? := by
  unfold SparseMatrix.columnRow
  rw [selection_find _ (fun _ => true) j (by intro m c; simp) ms 0]
  simp only [Nat.zero_le, if_true, Nat.sub_zero]
  cases ms[j]? <;> simp [Option.filter]

/-- C2: for every patch `k`, the restriction operator `Pid[k]` built by
`patch_assembly` has one column per appended DOF, and each of its columns
`0..width-1` has exactly one stored entry; that entry equals `1` and sits in the
row equal to the global DOF that was appended for that column, every other entry
of the column being `0`. -/
theorem Pid_one_nonzero_per_column (patches : patch_nod_info) (ref_levels_ : Int)
    (fespace : FiniteElementSpace) (k : Nat) (hk : k < patches.nrpatch) :
    ∃ M, (patch_assembly.build patches ref_levels_ fespace).Pid[k]? = some M ∧
      SelectsDofs M (appendedDofs patches fespace k) := by
  refine ⟨_, build_Pid_get patches ref_levels_ fespace k hk, rfl, ?_⟩
  intro c hc
  simp only at hc
  refine ⟨(appendedDofs patches fespace k)[c], List.getElem?_eq_getElem hc, ?_, ?_⟩
  · simp only [selection_filter_col, Nat.zero_le, if_true, Nat.sub_zero,
      List.getElem?_eq_getElem hc]
    rfl
  · intro i
    rw [selection_Elem, List.getElem?_eq_getElem hc]
    simp [eq_comm]

theorem entityCalls_proj_of_not_mem (k : Nat) (dofs : List Nat) :
    ∀ contr : List Nat, k ∉ contr →
      ((entityCalls contr dofs).filter (fun km => decide (km.1 = k))).map (fun km => km.2) = []
  | [], _ => by simp [entityCalls]
  | a :: contr, h => by
    have hak : ¬ a = k := fun e => h (by simp [e])
    have hk : k ∉ contr := fun e => h (by simp [e])
    have ih := entityCalls_proj_of_not_mem k dofs contr hk
    unfold entityCalls at ih ⊢
    simp only [List.flatMap_cons, List.filter_append, List.map_append, ih, List.append_nil]
    simp [List.filter_map, Function.comp_def, hak]

theorem entityCalls_proj (k : Nat) (dofs : List Nat) :
    ∀ contr : List Nat, contr.Nodup →
      ((entityCalls contr dofs).filter (fun km => decide (km.1 = k))).map (fun km => km.2) =
        if k ∈ contr then dofs else []
  | [], _ => by simp [entityCalls]
  | a :: contr, h => by
    have hnd : contr.Nodup := (List.nodup_cons.mp h).2
    have ha : a ∉ contr := (List.nodup_cons.mp h).1
    have ih := entityCalls_proj k dofs contr hnd
    by_cases hak : a = k
    · subst hak
      have h0 := entityCalls_proj_of_not_mem a dofs contr ha
      unfold entityCalls at h0 ⊢
      simp only [List.flatMap_cons, List.filter_append, List.map_append, h0, List.append_nil]
      simp [List.filter_map, Function.comp_def]
    · have hk : (k ∈ a :: contr) ↔ k ∈ contr := by
        simp only [List.mem_cons]
        constructor
        · rintro (e | e)
          · exact absurd e.symm hak
          · exact e
        · exact Or.inr
      unfold entityCalls at ih ⊢
      simp only [List.flatMap_cons, List.filter_append, List.map_append, ih, hk]
      simp [List.filter_map, Function.comp_def, hak]

theorem kindCalls_proj (k n : Nat) (contr : List (List Nat)) (dofs : Nat → List Nat)
    (hnd : ∀ s, s ∈ contr → s.Nodup) :
    ((kindCalls n contr dofs).filter (fun km => decide (km.1 = k))).map (fun km => km.2) =
      kindDofs k n contr dofs := by
  unfold kindCalls kindDofs
  rw [List.filter_flatMap, List.map_flatMap]
  congr 1
  funext i
  apply entityCalls_proj
  rw [List.getD_eq_getElem?_getD]
  cases h : contr[i]? with
  | none => simp
  | some s => exact hnd s (List.getElem?_mem h)

theorem appendedDofs_eq_patchDofs (patches : patch_nod_info) (fespace : FiniteElementSpace)
    (k : Nat) (hnodup : NoRepeat patches) :
    appendedDofs patches fespace k = patchDofs patches fespace k := by
  unfold appendedDofs setCalls patchDofs
  simp only [List.filter_append, List.map_append]
  rw [kindCalls_proj, kindCalls_proj, kindCalls_proj, kindCalls_proj]
  all_goals
    intro s hs
    apply hnodup s
    simp [hs]

/-- C3: for every patch `k`, when no contribution set lists a patch twice, the
sequence of the rows of the columns `0, 1, ..., width-1` of `Pid[k]` is the
concatenation of the vertex DOFs of the vertices whose contribution set contains
`k` (ascending vertex index, DOFs in local order), then the edge-interior DOFs of
such edges, then the face-interior DOFs of such faces, then the element-interior
DOFs of such elements. -/
theorem Pid_column_order (patches : patch_nod_info) (ref_levels_ : Int)
    (fespace : FiniteElementSpace) (k : Nat) (hk : k < patches.nrpatch)
    (hnodup : NoRepeat patches) :
    ∃ M, (patch_assembly.build patches ref_levels_ fespace).Pid[k]? = some M ∧
      (List.range M.width).map M.columnRow = (patchDofs patches fespace k).map some := by
  refine ⟨_, build_Pid_get patches ref_levels_ fespace k hk, ?_⟩
  rw [← appendedDofs_eq_patchDofs patches fespace k hnodup]
  apply List.ext_getElem?
  intro c
  simp only [List.getElem?_map]
  by_cases hc : c < (appendedDofs patches fespace k).length
  · rw [List.getElem?_range hc, List.getElem?_eq_getElem hc]
    simp only [Option.map_some']
    rw [selection_columnRow, List.getElem?_eq_getElem hc]
  · have h1 : (List.range (appendedDofs patches fespace k).length)[c]? = none := by
      rw [List.getElem?_eq_none_iff]; simpa using hc
    have h2 : (appendedDofs patches fespace k)[c]? = none := by
      rw [List.getElem?_eq_none_iff]; simpa using hc
    rw [h1, h2]
    rfl

theorem length_flatMap_ite (p : Nat → Prop) [DecidablePred p] (f : Nat → List Nat) :
    ∀ l : List Nat,
      (l.flatMap (fun i => if p i then f i else [])).length =
        ((l.filter (fun i => decide (p i))).map (fun i => (f i).length)).sum
  | [] => by simp
  | a :: l => by
    have ih := length_flatMap_ite p f l
    rw [List.flatMap_cons, List.length_append, ih]
    by_cases h : p a
    · rw [List.filter_cons_of_pos (by simpa using h), if_pos h, List.map_cons, List.sum_cons]
    · rw [List.filter_cons_of_neg (by simpa using h), if_neg h, List.length_nil, Nat.zero_add]

theorem length_kindDofs (k n : Nat) (contr : List (List Nat)) (dofs : Nat → List Nat) :
    (kindDofs k n contr dofs).length = kindCount k n contr dofs :=
  length_flatMap_ite (fun i => k ∈ contr.getD i []) dofs (List.range n)

theorem entityPass_nil (st : AsmState) : ∀ contr : List Nat, entityPass st contr [] = st
  | [] => rfl
  | k :: contr => by
    have ih := entityPass_nil st contr
    unfold entityPass at ih ⊢
    simp only [List.foldl_cons, List.foldl_nil]
    exact ih

/-- C10: for every patch `k`, when no contribution set lists a patch twice, the
final width of `Pid[k]` is the sum, over the vertices, edges, faces and elements
whose contribution set contains `k`, of the length of the DOF list of the entity;
and the pass of an entity with an empty DOF list leaves all the counters and all
the matrices unchanged. -/
theorem Pid_width_eq_dof_count (patches : patch_nod_info) (ref_levels_ : Int)
    (fespace : FiniteElementSpace) (k : Nat) (hk : k < patches.nrpatch)
    (hnodup : NoRepeat patches) :
    (∃ M, (patch_assembly.build patches ref_levels_ fespace).Pid[k]? = some M ∧
      M.width =
        kindCount k fespace.mesh.nv patches.vertex_contr fespace.vertexDofs +
        kindCount k fespace.mesh.nedges patches.edge_contr fespace.edgeInteriorDofs +
        kindCount k fespace.mesh.nfaces patches.face_contr fespace.faceInteriorDofs +
        kindCount k fespace.mesh.ne patches.elem_contr fespace.elementInteriorDofs) ∧
    (∀ (st : AsmState) (contr : List Nat), entityPass st contr [] = st) := by
  refine ⟨⟨_, build_Pid_get patches ref_levels_ fespace k hk, ?_⟩, entityPass_nil⟩
  simp only
  rw [appendedDofs_eq_patchDofs patches fespace k hnodup]
  unfold patchDofs
  simp only [List.length_append, length_kindDofs]

/-- copying the `nz` column indices of a row one by one gives the row as stored -/
theorem copy_row_columns (Pr : SparseMatrix) (iv : Nat) :
    (List.range (Pr.RowSize iv)).map (fun i => (Pr.GetRowColumns iv).getD i 0) =
      Pr.GetRowColumns iv := by
  have hlen : Pr.RowSize iv = (Pr.GetRowColumns iv).length := by
    simp [SparseMatrix.RowSize, SparseMatrix.GetRowColumns]
  rw [hlen]
  apply List.ext_getElem?
  intro i
  by_cases hi : i < (Pr.GetRowColumns iv).length
  · rw [List.getElem?_map, List.getElem?_range hi, Option.map_some',
      List.getD_eq_getElem?_getD, List.getElem?_eq_getElem hi]
    rfl
  · rw [List.getElem?_eq_none_iff.mpr (by simpa using hi),
      List.getElem?_eq_none_iff.mpr (by simpa using hi)]

/-- what a successful construction of `patch_nod_info` returns -/
theorem patch_nod_info_new_some (H : Hierarchy) (mesh_ : Mesh) (ref_levels_ : Int)
    (ess_dof_list : List Nat) (info : patch_nod_info)
    (hnew : patch_nod_info.new H mesh_ ref_levels_ ess_dof_list = some info) :
    ∃ Pr, refineLoop H ref_levels_.toNat (mesh_, none) = (info.mesh, some Pr) ∧
      info.nrpatch = mesh_.nv ∧
      info.vertex_contr =
        (List.range info.mesh.nv).map (fun iv => (Pr.Threshold 0).GetRowColumns iv) ∧
      info.edge_contr = (List.range info.mesh.nedges).map
        (fun ie => entityContr info.vertex_contr (info.mesh.edgeVertices ie)) ∧
      info.face_contr = (List.range info.mesh.nfaces).map
        (fun ifc => entityContr info.vertex_contr (info.mesh.faceVertices ifc)) ∧
      info.elem_contr = (List.range info.mesh.ne).map
        (fun iel => entityContr info.vertex_contr (info.mesh.elementVertices iel)) := by
  unfold patch_nod_info.new at hnew
  split at hnew
  · exact absurd hnew (by simp)
  · rename_i mesh Pr0 heq
    simp only [Option.some.injEq] at hnew
    subst hnew
    refine ⟨Pr0, heq, rfl, ?_, rfl, rfl, rfl⟩
    simp only [copy_row_columns]

theorem getD_map_range (f : Nat → List Nat) (n i : Nat) (hi : i < n) :
    ((List.range n).map f).getD i [] = f i := by
  rw [List.getD_eq_getElem?_getD, List.getElem?_map, List.getElem?_range hi]
  rfl

theorem mem_entityCalls (k m : Nat) (contr dofs : List Nat) :
    (k, m) ∈ entityCalls contr dofs ↔ k ∈ contr ∧ m ∈ dofs := by
  unfold entityCalls
  simp only [List.mem_flatMap, List.mem_map, Prod.mk.injEq]
  constructor
  · rintro ⟨a, ha, b, hb, rfl, rfl⟩
    exact ⟨ha, hb⟩
  · rintro ⟨hk, hm⟩
    exact ⟨k, hk, m, hm, rfl, rfl⟩

theorem mem_kindCalls (k m n : Nat) (contr : List (List Nat)) (dofs : Nat → List Nat) :
    (k, m) ∈ kindCalls n contr dofs ↔ ∃ i, i < n ∧ k ∈ contr.getD i [] ∧ m ∈ dofs i := by
  unfold kindCalls
  simp only [List.mem_flatMap, List.mem_range, mem_entityCalls]

theorem mem_appendedDofs (patches : patch_nod_info) (fespace : FiniteElementSpace) (k m : Nat) :
    m ∈ appendedDofs patches fespace k ↔ (k, m) ∈ setCalls patches fespace := by
  unfold appendedDofs
  simp only [List.mem_map, List.mem_filter, decide_eq_true_eq]
  constructor
  · rintro ⟨⟨a, b⟩, ⟨h, rfl⟩, rfl⟩
    exact h
  · intro h
    exact ⟨(k, m), ⟨h, rfl⟩, rfl⟩

/-- a DOF appended to patch `k` has a `1` in one column of `Pid[k]` -/
theorem covered_of_mem_appended (patches : patch_nod_info) (ref_levels_ : Int)
    (fespace : FiniteElementSpace) (k m : Nat) (hk : k < patches.nrpatch)
    (hm : m ∈ appendedDofs patches fespace k) :
    ∃ M, (patch_assembly.build patches ref_levels_ fespace).Pid[k]? = some M ∧
      ∃ c, c < M.width ∧ M.Elem m c = 1 := by
  refine ⟨_, build_Pid_get patches ref_levels_ fespace k hk, ?_⟩
  obtain ⟨c, hc, hcm⟩ := List.getElem_of_mem hm
  refine ⟨c, hc, ?_⟩
  rw [selection_Elem, List.getElem?_eq_getElem hc, hcm]
  simp

theorem entityContr_nonempty (vc : List (List Nat)) (verts : List Nat) (nv : Nat)
    (hvert : ∀ v, v < nv → ∃ k, k ∈ vc.getD v [])
    (hent : ∃ v, v ∈ verts ∧ v < nv) :
    ∃ k, k ∈ entityContr vc verts ∧ ∃ v, v < nv ∧ k ∈ vc.getD v [] := by
  obtain ⟨v, hv, hvn⟩ := hent
  obtain ⟨k, hk⟩ := hvert v hvn
  exact ⟨k, ((entityContr_isSortedUnion vc verts).2 k).mpr ⟨v, hv, hk⟩, v, hvn, hk⟩

/-- C5: every global DOF is owned by at least one patch.  When the DOF space
lives on the refined mesh, every DOF below `GetVSize()` is enumerated by some
vertex, edge, face or element, every fine vertex belongs to at least one patch
and only to patches below `nrpatch`, and every edge, face and element has a
vertex of the mesh, then for every DOF `m` there are a patch `k` and a column of
`Pid[k]` whose entry in row `m` is `1`. -/
theorem every_dof_in_some_patch (H : Hierarchy) (cmesh_ : Mesh) (ref_levels_ : Int)
    (ess_dof_list : List Nat) (fespace : FiniteElementSpace) (info : patch_nod_info)
    (hnew : patch_nod_info.new H cmesh_ ref_levels_ ess_dof_list = some info)
    (hmesh : fespace.mesh = info.mesh)
    (hvert : ∀ v, v < info.mesh.nv → ∃ k, k ∈ info.vertex_contr.getD v [])
    (hrange : ∀ v, v < info.mesh.nv → ∀ k, k ∈ info.vertex_contr.getD v [] → k < info.nrpatch)
    (hedge : ∀ i, i < info.mesh.nedges → ∃ v, v ∈ info.mesh.edgeVertices i ∧ v < info.mesh.nv)
    (hface : ∀ i, i < info.mesh.nfaces → ∃ v, v ∈ info.mesh.faceVertices i ∧ v < info.mesh.nv)
    (helem : ∀ i, i < info.mesh.ne → ∃ v, v ∈ info.mesh.elementVertices i ∧ v < info.mesh.nv)
    (henum : ∀ m, m < fespace.vsize →
      (∃ i, i < fespace.mesh.nv ∧ m ∈ fespace.vertexDofs i) ∨
      (∃ i, i < fespace.mesh.nedges ∧ m ∈ fespace.edgeInteriorDofs i) ∨
      (∃ i, i < fespace.mesh.nfaces ∧ m ∈ fespace.faceInteriorDofs i) ∨
      (∃ i, i < fespace.mesh.ne ∧ m ∈ fespace.elementInteriorDofs i)) :
    ∀ m, m < fespace.vsize →
      ∃ k, k < info.nrpatch ∧
        ∃ M, (patch_assembly.build info ref_levels_ fespace).Pid[k]? = some M ∧
          ∃ c, c < M.width ∧ M.Elem m c = 1 := by
  intro m hm
  obtain ⟨Pr, -, -, -, he, hf, hel⟩ :=
    patch_nod_info_new_some H cmesh_ ref_levels_ ess_dof_list info hnew
  have key : ∃ k, k < info.nrpatch ∧ (k, m) ∈ setCalls info fespace := by
    unfold setCalls
    simp only [List.mem_append, mem_kindCalls, hmesh]
    rw [hmesh] at henum
    rcases henum m hm with ⟨i, hi, hmi⟩ | ⟨i, hi, hmi⟩ | ⟨i, hi, hmi⟩ | ⟨i, hi, hmi⟩
    · obtain ⟨k, hk⟩ := hvert i hi
      exact ⟨k, hrange i hi k hk, Or.inl (Or.inl (Or.inl ⟨i, hi, hk, hmi⟩))⟩
    · obtain ⟨k, hk, v, hv, hkv⟩ :=
        entityContr_nonempty info.vertex_contr _ _ hvert (hedge i hi)
      refine ⟨k, hrange v hv k hkv, Or.inl (Or.inl (Or.inr ⟨i, hi, ?_, hmi⟩))⟩
      rw [he, getD_map_range _ _ _ hi]
      exact hk
    · obtain ⟨k, hk, v, hv, hkv⟩ :=
        entityContr_nonempty info.vertex_contr _ _ hvert (hface i hi)
      refine ⟨k, hrange v hv k hkv, Or.inl (Or.inr ⟨i, hi, ?_, hmi⟩)⟩
      rw [hf, getD_map_range _ _ _ hi]
      exact hk
    · obtain ⟨k, hk, v, hv, hkv⟩ :=
        entityContr_nonempty info.vertex_contr _ _ hvert (helem i hi)
      refine ⟨k, hrange v hv k hkv, Or.inr ⟨i, hi, ?_, hmi⟩⟩
      rw [hel, getD_map_range _ _ _ hi]
      exact hk
  obtain ⟨k, hk, hkm⟩ := key
  exact ⟨k, hk, covered_of_mem_appended info ref_levels_ fespace k m hk
    ((mem_appendedDofs info fespace k m).mpr hkm)⟩

/-! ## Vertex contribution sets -/

theorem exInfo_eq : patch_nod_info.new exH exCoarse 1 [] = some exInfo := by
  simp [patch_nod_info.new, refineLoop, exH, exP, exInfo, exCoarse, SparseMatrix.Threshold,
    SparseMatrix.GetRowColumns, SparseMatrix.RowSize, SparseMatrix.rowEntries, List.range,
    List.range.loop, entityContr, Array_Sort, Array_Unique, exFine]

/-- C7: with refinement depth `0` the loop body never runs, the composed
prolongation is still the null pointer at `Pr->Threshold(0.0)`, and the
construction of `patch_nod_info`, hence of `patch_assembly`, fails: no
contribution set is produced. -/
theorem patch_nod_info_depth_zero_fails (H : Hierarchy) (mesh_ : Mesh)
    (ess_dof_list : List Nat) (fespace : FiniteElementSpace) :
    patch_nod_info.new H mesh_ 0 ess_dof_list = none ∧
      patch_assembly.new H mesh_ 0 fespace ess_dof_list = none := by
  have h : patch_nod_info.new H mesh_ 0 ess_dof_list = none := by
    simp [patch_nod_info.new, refineLoop]
  exact ⟨h, by simp [patch_assembly.new, h]⟩

theorem threshold_zero_entries (Pr : SparseMatrix) :
    (Pr.Threshold 0).entries = Pr.entries.filter (fun e => decide (e.2.2 ≠ 0)) := by
  unfold SparseMatrix.Threshold
  simp only
  apply List.filter_congr
  intro e _
  simp [abs_pos]

theorem threshold_zero_row (Pr : SparseMatrix) (v : Nat) :
    (Pr.Threshold 0).GetRowColumns v =
      ((Pr.rowEntries v).filter (fun e => decide (e.2 ≠ 0))).map (fun e => e.1) := by
  unfold SparseMatrix.GetRowColumns SparseMatrix.rowEntries
  rw [threshold_zero_entries]
  simp only [List.filter_filter, List.filter_map, List.map_map]
  congr 1
  apply List.filter_congr
  intro e _
  simp [Function.comp, Bool.and_comm]

theorem find_of_nodup_keys (c : Nat) (a : ℚ) :
    ∀ l : List (Nat × ℚ), (l.map (fun e => e.1)).Nodup → (c, a) ∈ l →
      l.find? (fun e => decide (e.1 = c)) = some (c, a)
  | [], _, h => by simp at h
  | (c', a') :: l, hnd, h => by
    simp only [List.map_cons, List.nodup_cons] at hnd
    simp only [List.mem_cons, Prod.mk.injEq] at h
    by_cases hc : c' = c
    · subst hc
      rcases h with ⟨-, rfl⟩ | h
      · simp
      · exact absurd (List.mem_map.mpr ⟨(c', a), h, rfl⟩) hnd.1
    · rcases h with ⟨rfl, -⟩ | h
      · exact absurd rfl hc
      · simp [List.find?_cons, hc, find_of_nodup_keys c a l hnd.2 h]

theorem Elem_ne_zero_iff (Pr : SparseMatrix) (v c : Nat)
    (hnd : (Pr.GetRowColumns v).Nodup) :
    Pr.Elem v c ≠ 0 ↔ ∃ a, (c, a) ∈ Pr.rowEntries v ∧ a ≠ 0 := by
  unfold SparseMatrix.Elem
  constructor
  · intro h
    split at h
    · rename_i e he
      have h1 := List.find?_some he
      have h2 := List.mem_of_find?_eq_some he
      simp only [decide_eq_true_eq] at h1
      refine ⟨e.2, ?_, h⟩
      rw [← h1]
      exact h2
    · exact absurd rfl h
  · rintro ⟨a, ha, hne⟩
    rw [find_of_nodup_keys c a _ hnd ha]
    exact hne

/-- C8: the threshold at `0.0` drops exactly the stored entries of value zero of
the composed prolongation `Pr`, and for every fine vertex `v` and every `c`, `c` is
in `vertex_contr[v]` if and only if row `v` stores a nonzero value at column `c`;
when the columns of row `v` are pairwise distinct this is the entry `(v, c)` of
`Pr` being nonzero. -/
theorem vertex_contr_iff_nonzero (H : Hierarchy) (mesh_ : Mesh) (ref_levels_ : Int)
    (ess_dof_list : List Nat) (info : patch_nod_info)
    (hnew : patch_nod_info.new H mesh_ ref_levels_ ess_dof_list = some info) :
    ∃ Pr, refineLoop H ref_levels_.toNat (mesh_, none) = (info.mesh, some Pr) ∧
      (Pr.Threshold 0).entries = Pr.entries.filter (fun e => decide (e.2.2 ≠ 0)) ∧
      ∀ v, v < info.mesh.nv → ∀ c,
        (c ∈ info.vertex_contr.getD v [] ↔ ∃ a, (v, c, a) ∈ Pr.entries ∧ a ≠ 0) ∧
        ((Pr.GetRowColumns v).Nodup →
          (c ∈ info.vertex_contr.getD v [] ↔ Pr.Elem v c ≠ 0)) := by
  obtain ⟨Pr, hloop, -, hvc, -, -, -⟩ :=
    patch_nod_info_new_some H mesh_ ref_levels_ ess_dof_list info hnew
  refine ⟨Pr, hloop, threshold_zero_entries Pr, ?_⟩
  intro v hv c
  have hrow : info.vertex_contr.getD v [] =
      ((Pr.rowEntries v).filter (fun e => decide (e.2 ≠ 0))).map (fun e => e.1) := by
    rw [hvc, getD_map_range _ _ _ hv, threshold_zero_row]
  have hmem : c ∈ info.vertex_contr.getD v [] ↔ ∃ a, (c, a) ∈ Pr.rowEntries v ∧ a ≠ 0 := by
    rw [hrow]
    simp only [List.mem_map, List.mem_filter, decide_eq_true_eq]
    constructor
    · rintro ⟨⟨c', a⟩, ⟨h1, h2⟩, rfl⟩
      exact ⟨a, h1, h2⟩
    · rintro ⟨a, h1, h2⟩
      exact ⟨(c, a), ⟨h1, h2⟩, rfl⟩
  constructor
  · rw [hmem]
    unfold SparseMatrix.rowEntries
    simp only [List.mem_map, List.mem_filter, decide_eq_true_eq]
    constructor
    · rintro ⟨a, ⟨⟨i, c', a'⟩, ⟨h1, h2⟩, h3⟩, hne⟩
      simp only [Prod.mk.injEq] at h3 h2
      obtain ⟨rfl, rfl⟩ := h3
      subst h2
      exact ⟨a', h1, hne⟩
    · rintro ⟨a, h1, hne⟩
      exact ⟨a, ⟨(v, c, a), ⟨h1, rfl⟩, rfl⟩, hne⟩
  · intro hnd
    rw [hmem, Elem_ne_zero_iff Pr v c hnd]

/-- C9, as amended: for every fine vertex `v`, `vertex_contr[v]` lists the
columns of the nonzero entries of row `v` of the composed prolongation in the
order in which the row stores them; it is strictly ascending when the columns of
the row are stored in strictly ascending order. -/
theorem vertex_contr_storage_order (H : Hierarchy) (mesh_ : Mesh) (ref_levels_ : Int)
    (ess_dof_list : List Nat) (info : patch_nod_info)
    (hnew : patch_nod_info.new H mesh_ ref_levels_ ess_dof_list = some info) :
    ∃ Pr, refineLoop H ref_levels_.toNat (mesh_, none) = (info.mesh, some Pr) ∧
      ∀ v, v < info.mesh.nv →
        info.vertex_contr.getD v [] =
          ((Pr.rowEntries v).filter (fun e => decide (e.2 ≠ 0))).map (fun e => e.1) ∧
        ((Pr.GetRowColumns v).Sorted (fun a b => a < b) →
          (info.vertex_contr.getD v []).Sorted (fun a b => a < b)) := by
  obtain ⟨Pr, hloop, -, hvc, -, -, -⟩ :=
    patch_nod_info_new_some H mesh_ ref_levels_ ess_dof_list info hnew
  refine ⟨Pr, hloop, ?_⟩
  intro v hv
  have hrow : info.vertex_contr.getD v [] =
      ((Pr.rowEntries v).filter (fun e => decide (e.2 ≠ 0))).map (fun e => e.1) := by
    rw [hvc, getD_map_range _ _ _ hv, threshold_zero_row]
  refine ⟨hrow, ?_⟩
  intro hs
  rw [hrow]
  exact List.Pairwise.sublist (List.Sublist.map _ (List.filter_sublist _)) hs

/-- C9, counterexample: the prolongation `exP` stores the row of the midpoint
with column `1` before column `0`, and `vertex_contr[2]` is `[1, 0]`, which is not
ascending. -/
theorem vertex_contr_not_sorted :
    patch_nod_info.new exH exCoarse 1 [] = some exInfo ∧
      exP.GetRowColumns 2 = [1, 0] ∧
      exInfo.vertex_contr.getD 2 [] = [1, 0] ∧
      ¬ (exInfo.vertex_contr.getD 2 []).Sorted (fun a b => a < b) := by
  refine ⟨exInfo_eq, ?_, ?_, ?_⟩
  · simp [exP, SparseMatrix.GetRowColumns, SparseMatrix.rowEntries]
  · simp [exInfo]
  · simp [exInfo]

/-! ## Application of the smoother -/

theorem length_addAssign : ∀ z v : List ℚ, (addAssign z v).length = z.length
  | [], _ => rfl
  | _ :: _, [] => rfl
  | a :: z, b :: v => by simp [addAssign, length_addAssign z v]

theorem getD_addAssign : ∀ (z v : List ℚ) (i : Nat), i < z.length →
    (addAssign z v).getD i 0 = z.getD i 0 + v.getD i 0
  | [], _, _, h => by simp at h
  | a :: z, [], i, _ => by simp [addAssign]
  | a :: z, b :: v, 0, _ => by simp [addAssign]
  | a :: z, b :: v, i + 1, h => by
    have := getD_addAssign z v i (by simpa using h)
    simpa [addAssign] using this

theorem addAssign_right_comm : ∀ z a b : List ℚ,
    addAssign (addAssign z a) b = addAssign (addAssign z b) a
  | [], _, _ => rfl
  | x :: z, [], [] => rfl
  | x :: z, [], b :: bs => by simp [addAssign]
  | x :: z, a :: as, [] => by simp [addAssign]
  | x :: z, a :: as, b :: bs => by
    simp only [addAssign, List.cons.injEq]
    exact ⟨by ring, addAssign_right_comm z as bs⟩

theorem length_additiveLoop (S : SchwarzSmoother) (r : List ℚ) :
    ∀ (order : List Nat) (z : List ℚ), (S.additiveLoop r order z).length = z.length
  | [], _ => rfl
  | i :: order, z => by
    unfold SchwarzSmoother.additiveLoop
    rw [List.foldl_cons]
    exact (length_additiveLoop S r order _).trans (length_addAssign _ _)

theorem getD_additiveLoop_range (S : SchwarzSmoother) (r z : List ℚ) (i : Nat)
    (hi : i < z.length) :
    ∀ n : Nat, (S.additiveLoop r (List.range n) z).getD i 0 =
      z.getD i 0 + ∑ k ∈ Finset.range n, (S.zaux r k).getD i 0
  | 0 => by simp [SchwarzSmoother.additiveLoop]
  | n + 1 => by
    have ih := getD_additiveLoop_range S r z i hi n
    have hlen := length_additiveLoop S r (List.range n) z
    unfold SchwarzSmoother.additiveLoop at ih hlen ⊢
    rw [List.range_succ, List.foldl_append, List.foldl_cons, List.foldl_nil,
      getD_addAssign _ _ _ (by rw [hlen]; exact hi), ih, Finset.sum_range_succ]
    ring

theorem getD_assignZero (z : List ℚ) (i : Nat) : (assignZero z).getD i 0 = 0 := by
  unfold assignZero
  rw [List.getD_eq_getElem?_getD, List.getElem?_map]
  cases z[i]? <;> rfl

/-- C4: for the kind `ADDITIVE` and every residual `r`, `Mult` keeps the size of
`z`, every entry of the result is the sum over the patches `k < nrpatch` of the
entry of `R_k (solve_k (R_kᵀ r))` with `R_k = Pid[k]`, and visiting the patches in
any other order gives the same result. -/
theorem Mult_additive_sum (S : SchwarzSmoother) (r z : List ℚ)
    (hS : S.sType = SmootherType.ADDITIVE) :
    (S.Mult r z).length = z.length ∧
    (∀ i, i < z.length →
      (S.Mult r z).getD i 0 =
        ∑ k ∈ Finset.range S.nrpatch,
          (((S.P.Pid.getD k (SparseMatrix.square 0)).Mult
            (S.invA_local k
              ((S.P.Pid.getD k (SparseMatrix.square 0)).MultTranspose r
                (S.P.Pid.getD k (SparseMatrix.square 0)).width))
            r.length).getD i 0)) ∧
    (∀ order : List Nat, order.Perm (List.range S.nrpatch) →
      S.additiveLoop r order (assignZero z) = S.Mult r z) := by
  have hM : S.Mult r z = S.additiveLoop r (List.range S.nrpatch) (assignZero z) := by
    unfold SchwarzSmoother.Mult
    rw [hS]
  refine ⟨?_, ?_, ?_⟩
  · rw [hM, length_additiveLoop]
    simp [assignZero]
  · intro i hi
    rw [hM, getD_additiveLoop_range S r _ i (by simpa [assignZero] using hi), getD_assignZero,
      zero_add]
    rfl
  · intro order hperm
    rw [hM]
    unfold SchwarzSmoother.additiveLoop
    exact List.Perm.foldl_eq' hperm (fun x _ y _ z => addAssign_right_comm z _ _) _

theorem MultTranspose_zero (M : SparseMatrix) (n w : Nat) :
    M.MultTranspose (List.replicate n 0) w = List.replicate w 0 := by
  unfold SparseMatrix.MultTranspose
  apply List.ext_getElem?
  intro j
  by_cases hj : j < w
  · rw [List.getElem?_map, List.getElem?_range hj, List.getElem?_replicate_of_lt hj]
    simp only [Option.map_some', Option.some.injEq]
    apply List.sum_eq_zero
    intro x hx
    simp only [List.mem_map] at hx
    obtain ⟨e, -, rfl⟩ := hx
    have : (List.replicate n (0 : ℚ)).getD e.1 0 = 0 := by
      rw [List.getD_eq_getElem?_getD, List.getElem?_replicate]
      split <;> rfl
    rw [this, mul_zero]
  · rw [List.getElem?_eq_none_iff.mpr (by simpa using hj),
      List.getElem?_eq_none_iff.mpr (by simpa using hj)]

theorem Mult_zero (M : SparseMatrix) (n w : Nat) :
    M.Mult (List.replicate n 0) w = List.replicate w 0 := by
  unfold SparseMatrix.Mult
  apply List.ext_getElem?
  intro j
  by_cases hj : j < w
  · rw [List.getElem?_map, List.getElem?_range hj, List.getElem?_replicate_of_lt hj]
    simp only [Option.map_some', Option.some.injEq]
    apply List.sum_eq_zero
    intro x hx
    simp only [List.mem_map] at hx
    obtain ⟨e, -, rfl⟩ := hx
    have : (List.replicate n (0 : ℚ)).getD e.2.1 0 = 0 := by
      rw [List.getD_eq_getElem?_getD, List.getElem?_replicate]
      split <;> rfl
    rw [this, mul_zero]
  · rw [List.getElem?_eq_none_iff.mpr (by simpa using hj),
      List.getElem?_eq_none_iff.mpr (by simpa using hj)]

theorem addAssign_zero : ∀ a b : Nat,
    addAssign (List.replicate a 0) (List.replicate b 0) = List.replicate a 0
  | 0, _ => rfl
  | a + 1, 0 => rfl
  | a + 1, b + 1 => by
    simp only [List.replicate_succ, addAssign, add_zero, List.cons.injEq, true_and]
    exact addAssign_zero a b

theorem assignZero_eq (z : List ℚ) : assignZero z = List.replicate z.length 0 := by
  unfold assignZero
  induction z with
  | nil => rfl
  | cons a z ih => simp [List.replicate_succ, ih]

/-- C6: when every local solve maps the zero vector to the zero vector, `Mult`
maps the zero residual to the zero vector, for every smoother kind. -/
theorem Mult_zero_residual (S : SchwarzSmoother) (n : Nat) (z : List ℚ)
    (hsolve : ∀ k, k < S.nrpatch →
      S.invA_local k (List.replicate (S.P.Pid.getD k (SparseMatrix.square 0)).NumCols 0) =
        List.replicate (S.P.Pid.getD k (SparseMatrix.square 0)).NumCols 0) :
    S.Mult (List.replicate n 0) z = List.replicate z.length 0 := by
  have hz : ∀ k, k < S.nrpatch → S.zaux (List.replicate n 0) k = List.replicate n 0 := by
    intro k hk
    unfold SchwarzSmoother.zaux
    simp only [MultTranspose_zero, hsolve k hk, Mult_zero, List.length_replicate]
  have hloop : ∀ m, m ≤ S.nrpatch →
      S.additiveLoop (List.replicate n 0) (List.range m) (List.replicate z.length 0) =
        List.replicate z.length 0 := by
    intro m
    induction m with
    | zero => intro _; rfl
    | succ m ih =>
      intro hm
      have ih := ih (by omega)
      unfold SchwarzSmoother.additiveLoop at ih ⊢
      rw [List.range_succ, List.foldl_append, ih, List.foldl_cons, List.foldl_nil,
        hz m (by omega), addAssign_zero]
  unfold SchwarzSmoother.Mult
  simp only [assignZero_eq]
  cases S.sType
  · exact hloop S.nrpatch le_rfl
  · rfl
  · rfl

/-! ## The statements on concrete data -/

/-- C1, witness: the contribution sets of the refined segment. -/
theorem entity_contr_sorted_union_witness :
    patch_nod_info.new exH exCoarse 1 [] = some exInfo ∧
    ((exInfo.edge_contr.length = exInfo.mesh.nedges ∧
      ∀ ie, ie < exInfo.mesh.nedges →
        IsSortedUnion exInfo.vertex_contr (exInfo.mesh.edgeVertices ie)
          (exInfo.edge_contr.getD ie [])) ∧
    (exInfo.face_contr.length = exInfo.mesh.nfaces ∧
      ∀ ifc, ifc < exInfo.mesh.nfaces →
        IsSortedUnion exInfo.vertex_contr (exInfo.mesh.faceVertices ifc)
          (exInfo.face_contr.getD ifc [])) ∧
    (exInfo.elem_contr.length = exInfo.mesh.ne ∧
      ∀ iel, iel < exInfo.mesh.ne →
        IsSortedUnion exInfo.vertex_contr (exInfo.mesh.elementVertices iel)
          (exInfo.elem_contr.getD iel []))) :=
  ⟨exInfo_eq, entity_contr_sorted_union exH exCoarse 1 [] exInfo exInfo_eq⟩

theorem exInfo_noRepeat : NoRepeat exInfo := by
  unfold NoRepeat
  simp [exInfo]

/-- C3, witness: patch `1` of the refined segment. -/
theorem Pid_column_order_witness :
    (1 < exInfo.nrpatch ∧ NoRepeat exInfo) ∧
    ∃ M, (patch_assembly.build exInfo 1 exSpace).Pid[1]? = some M ∧
      (List.range M.width).map M.columnRow = (patchDofs exInfo exSpace 1).map some :=
  ⟨⟨by decide, exInfo_noRepeat⟩,
    Pid_column_order exInfo 1 exSpace 1 (by decide) exInfo_noRepeat⟩

/-- C5, witness: the five DOFs of the quadratic space on the refined segment. -/
theorem every_dof_in_some_patch_witness :
    patch_nod_info.new exH exCoarse 1 [] = some exInfo ∧
    ∀ m, m < exSpace.vsize →
      ∃ k, k < exInfo.nrpatch ∧
        ∃ M, (patch_assembly.build exInfo 1 exSpace).Pid[k]? = some M ∧
          ∃ c, c < M.width ∧ M.Elem m c = 1 :=
  ⟨exInfo_eq,
    every_dof_in_some_patch exH exCoarse 1 [] exSpace exInfo exInfo_eq rfl
      (by intro v hv
          have hv3 : v < 3 := hv
          interval_cases v
          · exact ⟨0, by simp [exInfo]⟩
          · exact ⟨1, by simp [exInfo]⟩
          · exact ⟨0, by simp [exInfo]⟩)
      (by intro v hv k hk
          have hv3 : v < 3 := hv
          interval_cases v <;> simp [exInfo] at hk ⊢ <;> omega)
      (by intro i hi
          have hi2 : i < 2 := hi
          exact ⟨2, by interval_cases i <;> simp [exInfo, exFine], by decide⟩)
      (by intro i hi
          exact absurd hi (by simp [exInfo, exFine]))
      (by intro i hi
          have hi2 : i < 2 := hi
          exact ⟨2, by interval_cases i <;> simp [exInfo, exFine], by decide⟩)
      (by intro m hm
          have hm5 : m < 5 := hm
          interval_cases m
          · exact Or.inl ⟨0, by decide, by simp [exSpace]⟩
          · exact Or.inl ⟨1, by decide, by simp [exSpace]⟩
          · exact Or.inl ⟨2, by decide, by simp [exSpace]⟩
          · exact Or.inr (Or.inl ⟨0, by decide, by simp [exSpace]⟩)
          · exact Or.inr (Or.inl ⟨1, by decide, by simp [exSpace]⟩))⟩

/-- C4, witness: the smoother `exSmoother` on a residual of size five. -/
theorem Mult_additive_sum_witness :
    exSmoother.sType = SmootherType.ADDITIVE ∧
    ((exSmoother.Mult [1, 2, 3, 4, 5] [9, 9, 9, 9, 9]).length = [(9 : ℚ), 9, 9, 9, 9].length ∧
    (∀ i, i < [(9 : ℚ), 9, 9, 9, 9].length →
      (exSmoother.Mult [1, 2, 3, 4, 5] [9, 9, 9, 9, 9]).getD i 0 =
        ∑ k ∈ Finset.range exSmoother.nrpatch,
          (((exSmoother.P.Pid.getD k (SparseMatrix.square 0)).Mult
            (exSmoother.invA_local k
              ((exSmoother.P.Pid.getD k (SparseMatrix.square 0)).MultTranspose [1, 2, 3, 4, 5]
                (exSmoother.P.Pid.getD k (SparseMatrix.square 0)).width))
            [(1 : ℚ), 2, 3, 4, 5].length).getD i 0)) ∧
    (∀ order : List Nat, order.Perm (List.range exSmoother.nrpatch) →
      exSmoother.additiveLoop [1, 2, 3, 4, 5] order (assignZero [9, 9, 9, 9, 9]) =
        exSmoother.Mult [1, 2, 3, 4, 5] [9, 9, 9, 9, 9])) :=
  ⟨rfl, Mult_additive_sum exSmoother [1, 2, 3, 4, 5] [9, 9, 9, 9, 9] rfl⟩

/-- C6, witness: the smoother `exSmoother`, whose solvers are linear. -/
theorem Mult_zero_residual_witness :
    (∀ k, k < exSmoother.nrpatch →
      exSmoother.invA_local k
          (List.replicate (exSmoother.P.Pid.getD k (SparseMatrix.square 0)).NumCols 0) =
        List.replicate (exSmoother.P.Pid.getD k (SparseMatrix.square 0)).NumCols 0) ∧
    exSmoother.Mult (List.replicate 5 0) [9, 9, 9, 9, 9] =
      List.replicate [(9 : ℚ), 9, 9, 9, 9].length 0 :=
  ⟨fun k _ => by simp [exSmoother],
    Mult_zero_residual exSmoother 5 [9, 9, 9, 9, 9] (fun k _ => by simp [exSmoother])⟩

/-- C2, witness: patch `0` of the refined segment. -/
theorem Pid_one_nonzero_per_column_witness :
    0 < exInfo.nrpatch ∧
    ∃ M, (patch_assembly.build exInfo 1 exSpace).Pid[0]? = some M ∧
      SelectsDofs M (appendedDofs exInfo exSpace 0) :=
  ⟨by decide, Pid_one_nonzero_per_column exInfo 1 exSpace 0 (by decide)⟩

/-- C10, witness: patch `0` of the refined segment. -/
theorem Pid_width_eq_dof_count_witness :
    (0 < exInfo.nrpatch ∧ NoRepeat exInfo) ∧
    (∃ M, (patch_assembly.build exInfo 1 exSpace).Pid[0]? = some M ∧
      M.width =
        kindCount 0 exSpace.mesh.nv exInfo.vertex_contr exSpace.vertexDofs +
        kindCount 0 exSpace.mesh.nedges exInfo.edge_contr exSpace.edgeInteriorDofs +
        kindCount 0 exSpace.mesh.nfaces exInfo.face_contr exSpace.faceInteriorDofs +
        kindCount 0 exSpace.mesh.ne exInfo.elem_contr exSpace.elementInteriorDofs) ∧
    (∀ (st : AsmState) (contr : List Nat), entityPass st contr [] = st) :=
  ⟨⟨by decide, exInfo_noRepeat⟩,
    Pid_width_eq_dof_count exInfo 1 exSpace 0 (by decide) exInfo_noRepeat⟩

/-- C8, witness: the prolongation of the refined segment. -/
theorem vertex_contr_iff_nonzero_witness :
    patch_nod_info.new exH exCoarse 1 [] = some exInfo ∧
    ∃ Pr, refineLoop exH (1 : Int).toNat (exCoarse, none) = (exInfo.mesh, some Pr) ∧
      (Pr.Threshold 0).entries = Pr.entries.filter (fun e => decide (e.2.2 ≠ 0)) ∧
      ∀ v, v < exInfo.mesh.nv → ∀ c,
        (c ∈ exInfo.vertex_contr.getD v [] ↔ ∃ a, (v, c, a) ∈ Pr.entries ∧ a ≠ 0) ∧
        ((Pr.GetRowColumns v).Nodup →
          (c ∈ exInfo.vertex_contr.getD v [] ↔ Pr.Elem v c ≠ 0)) :=
  ⟨exInfo_eq, vertex_contr_iff_nonzero exH exCoarse 1 [] exInfo exInfo_eq⟩

/-- C9, witness of the amended statement: the prolongation of the refined segment. -/
theorem vertex_contr_storage_order_witness :
    patch_nod_info.new exH exCoarse 1 [] = some exInfo ∧
    ∃ Pr, refineLoop exH (1 : Int).toNat (exCoarse, none) = (exInfo.mesh, some Pr) ∧
      ∀ v, v < exInfo.mesh.nv →
        exInfo.vertex_contr.getD v [] =
          ((Pr.rowEntries v).filter (fun e => decide (e.2 ≠ 0))).map (fun e => e.1) ∧
        ((Pr.GetRowColumns v).Sorted (fun a b => a < b) →
          (exInfo.vertex_contr.getD v []).Sorted (fun a b => a < b)) :=
  ⟨exInfo_eq, vertex_contr_storage_order exH exCoarse 1 [] exInfo exInfo_eq⟩

/-! ## The essential DOF list, the smoother kinds and the sizes -/

/-- C11: the restriction operators do not depend on the essential DOF list: for
any two lists and otherwise identical inputs the constructors of
`patch_nod_info` and `patch_assembly` return the same result, so every `Pid[k]`
is the same and no DOF is excluded for being essential. -/
theorem patch_assembly_ignores_ess_dof_list (H : Hierarchy) (cmesh_ : Mesh) (ref_levels_ : Int)
    (fespace : FiniteElementSpace) (ess₁ ess₂ : List Nat) :
    patch_nod_info.new H cmesh_ ref_levels_ ess₁ = patch_nod_info.new H cmesh_ ref_levels_ ess₂ ∧
    patch_assembly.new H cmesh_ ref_levels_ fespace ess₁ =
      patch_assembly.new H cmesh_ ref_levels_ fespace ess₂ ∧
    ∀ k : Nat, (patch_assembly.new H cmesh_ ref_levels_ fespace ess₁).map (fun pa => pa.Pid[k]?) =
      (patch_assembly.new H cmesh_ ref_levels_ fespace ess₂).map (fun pa => pa.Pid[k]?) := by
  have h : patch_nod_info.new H cmesh_ ref_levels_ ess₁ =
      patch_nod_info.new H cmesh_ ref_levels_ ess₂ := rfl
  have h2 : patch_assembly.new H cmesh_ ref_levels_ fespace ess₁ =
      patch_assembly.new H cmesh_ ref_levels_ fespace ess₂ := by
    unfold patch_assembly.new
    rw [h]
  exact ⟨h, h2, fun k => by rw [h2]⟩

theorem Mult_not_additive (S : SchwarzSmoother) (r z : List ℚ)
    (hS : S.sType ≠ SmootherType.ADDITIVE) :
    S.Mult r z = List.replicate z.length 0 := by
  unfold SchwarzSmoother.Mult
  rw [assignZero_eq]
  cases h : S.sType
  · exact absurd h hS
  · rfl
  · rfl

/-- C12, as amended: for the kinds `MULTIPLICATIVE` and `SYM_MULTIPLICATIVE`,
`Mult` reports no error; it sets `z` to zero and returns it, whatever the
residual is. -/
theorem Mult_unimplemented_kinds_return_zero (S : SchwarzSmoother) (r z : List ℚ)
    (hS : S.sType = SmootherType.MULTIPLICATIVE ∨ S.sType = SmootherType.SYM_MULTIPLICATIVE) :
    S.Mult r z = List.replicate z.length 0 := by
  apply Mult_not_additive
  rcases hS with h | h <;> rw [h] <;> simp

theorem length_Mult (S : SchwarzSmoother) (r z : List ℚ) :
    (S.Mult r z).length = z.length := by
  unfold SchwarzSmoother.Mult
  cases S.sType
  · simp only []
    rw [length_additiveLoop]
    simp [assignZero]
  · simp [assignZero]
  · simp [assignZero]

/-- C13: for a negative refinement depth the source checks nothing and returns
no error: the loop body never runs, the mesh is left unrefined and the composed
prolongation is still the null pointer when `Pr->Threshold(0.0)` dereferences
it, the same defect as at depth `0`.  None of the constructors of
`patch_nod_info`, `patch_assembly` and `SchwarzSmoother` completes (`none`
stands for this null dereference), and no contribution set is produced. -/
theorem negative_depth_null_dereference (H : Hierarchy)
    (UMFPackSolver : SparseMatrix → List ℚ → List ℚ)
    (sType_ : SmootherType) (mesh_ : Mesh) (ref_levels_ : Int) (fespace : FiniteElementSpace)
    (A_ : SparseMatrix) (ess_dof_list : List Nat) (hd : ref_levels_ < 0) :
    refineLoop H ref_levels_.toNat (mesh_, none) = (mesh_, none) ∧
    patch_nod_info.new H mesh_ ref_levels_ ess_dof_list = none ∧
    patch_assembly.new H mesh_ ref_levels_ fespace ess_dof_list = none ∧
    SchwarzSmoother.new H UMFPackSolver sType_ mesh_ ref_levels_ fespace A_ ess_dof_list =
      none := by
  have h0 : ref_levels_.toNat = 0 := by omega
  have hloop : refineLoop H ref_levels_.toNat (mesh_, none) = (mesh_, none) := by
    rw [h0]
    rfl
  have h : patch_nod_info.new H mesh_ ref_levels_ ess_dof_list = none := by
    simp [patch_nod_info.new, h0, refineLoop]
  have h2 : patch_assembly.new H mesh_ ref_levels_ fespace ess_dof_list = none := by
    simp [patch_assembly.new, h]
  exact ⟨hloop, h, h2, by simp [SchwarzSmoother.new, h2]⟩

/-- C15: the result of `Mult` does not depend on the contents of `z` on entry:
for every residual, every smoother kind and two vectors `z₁`, `z₂` of the same
size the results are equal. -/
theorem Mult_independent_of_initial_z (S : SchwarzSmoother) (r z₁ z₂ : List ℚ)
    (hlen : z₁.length = z₂.length) :
    S.Mult r z₁ = S.Mult r z₂ := by
  unfold SchwarzSmoother.Mult
  rw [assignZero_eq, assignZero_eq, hlen]

/-- the restriction operators of the two patches of the refined segment -/
theorem exPid_eq : (patch_assembly.build exInfo 1 exSpace).Pid =
    [{ height := 5, width := 4, entries := [(4, 3, 1), (3, 2, 1), (2, 1, 1), (0, 0, 1)] },
     { height := 5, width := 4, entries := [(4, 3, 1), (3, 2, 1), (2, 1, 1), (1, 0, 1)] }] := by
  simp [patch_assembly.build, fillPid, kindPass, entityPass, appendDof, exInfo, exSpace, exFine,
    List.range, List.range.loop, SparseMatrix.Set, SparseMatrix.square, SparseMatrix.SetWidth,
    SparseMatrix.Finalize, List.modify, List.modifyTailIdx, List.modifyHead]

/-- C12, counterexample: with the kind `MULTIPLICATIVE` the call returns, and
its result is the zero vector; no error is reported. -/
theorem Mult_silent_for_multiplicative :
    exMultiplicative.sType = SmootherType.MULTIPLICATIVE ∧
      exMultiplicative.Mult [1, 2, 3, 4, 5] [9, 9, 9, 9, 9] = [0, 0, 0, 0, 0] := by
  refine ⟨rfl, ?_⟩
  simp [SchwarzSmoother.Mult, exMultiplicative, assignZero]

/-- C14, counterexample: the space `exSpace` has five DOFs, and for a residual
of size six the call returns a correction; no error is reported. -/
theorem Mult_accepts_wrong_size :
    exSpace.vsize = 5 ∧ [(1 : ℚ), 2, 3, 4, 5, 6].length = 6 ∧
      exSmoother.Mult [1, 2, 3, 4, 5, 6] [9, 9, 9, 9, 9, 9] = [2, 4, 12, 16, 20, 0] := by
  refine ⟨rfl, rfl, ?_⟩
  simp [SchwarzSmoother.Mult, SchwarzSmoother.additiveLoop, SchwarzSmoother.zaux, exSmoother,
    exPid_eq, assignZero, addAssign, SparseMatrix.Mult, SparseMatrix.MultTranspose,
    SparseMatrix.NumCols, List.range, List.range.loop]
  simp +decide [List.filter_cons]
  norm_num

/-! ## The order of the composition and the essential DOF test -/

theorem refineLoop_succ (H : Hierarchy) :
    ∀ (n : Nat) (st : Mesh × Option SparseMatrix),
      refineLoop H (n + 1) st = refineLoop H 1 (refineLoop H n st)
  | 0, st => rfl
  | n + 1, (mesh, none) => by
    have ih := refineLoop_succ H n
      (H.UniformRefinement mesh, some (H.GetTransferOperator mesh (H.UniformRefinement mesh)))
    simpa [refineLoop] using ih
  | n + 1, (mesh, some T) => by
    have ih := refineLoop_succ H n
      (H.UniformRefinement mesh,
        some (Mult (H.GetTransferOperator mesh (H.UniformRefinement mesh)) T))
    simpa [refineLoop] using ih

theorem refineLoop_eq_composedP (H : Hierarchy) (mesh : Mesh) :
    ∀ n : Nat, refineLoop H (n + 1) (mesh, none) =
      (levelMesh H mesh (n + 1), some (composedP H mesh n))
  | 0 => by simp [refineLoop, levelMesh, composedP, levelP]
  | n + 1 => by
    rw [refineLoop_succ, refineLoop_eq_composedP H mesh n]
    simp [refineLoop, levelMesh, composedP, levelP]

/-- C18: for a refinement depth `d ≥ 1` the loop ends with the mesh refined `d`
times and the composed operator `P_d * (P_(d-1) * ( ... * P_1))`: the first pass
sets `T = P_1` and every later pass replaces `T` by `P_level * T`, the new
prolongation being the left factor. -/
theorem composed_operator_order (H : Hierarchy) (mesh : Mesh) (ref_levels : Int)
    (hd : 1 ≤ ref_levels) :
    refineLoop H ref_levels.toNat (mesh, none) =
        (levelMesh H mesh ref_levels.toNat, some (composedP H mesh (ref_levels.toNat - 1))) ∧
      composedP H mesh 0 = levelP H mesh 1 ∧
      ∀ n, composedP H mesh (n + 1) = Mult (levelP H mesh (n + 2)) (composedP H mesh n) := by
  obtain ⟨n, hn⟩ : ∃ n, ref_levels.toNat = n + 1 := ⟨ref_levels.toNat - 1, by omega⟩
  refine ⟨?_, rfl, fun n => rfl⟩
  rw [hn, refineLoop_eq_composedP]
  simp

theorem sorted_getD_le (a : List Nat) (hs : a.Sorted (fun x y => x ≤ y)) (i j : Nat)
    (hij : i ≤ j) (hj : j < a.length) : a.getD i 0 ≤ a.getD j 0 := by
  have hi : i < a.length := by omega
  rw [List.getD_eq_getElem?_getD, List.getD_eq_getElem?_getD, List.getElem?_eq_getElem hi,
    List.getElem?_eq_getElem hj]
  simp only [Option.getD_some]
  rcases Nat.eq_or_lt_of_le hij with rfl | hlt
  · exact le_rfl
  · exact (List.pairwise_iff_getElem.mp hs) i j hi hj hlt

theorem lowerBoundLoop_spec (a : List Nat) (value : Nat) (hs : a.Sorted (fun x y => x ≤ y)) :
    ∀ (fuel first count : Nat), count ≤ fuel → first + count ≤ a.length →
      (∀ i, i < first → a.getD i 0 < value) →
      (∀ i, first + count ≤ i → i < a.length → value ≤ a.getD i 0) →
      lowerBoundLoop a value fuel first count ≤ a.length ∧
      (∀ i, i < lowerBoundLoop a value fuel first count → a.getD i 0 < value) ∧
      (∀ i, lowerBoundLoop a value fuel first count ≤ i → i < a.length →
        value ≤ a.getD i 0) := by
  intro fuel
  induction fuel with
  | zero =>
    intro first count hc hlen hlo hhi
    have : count = 0 := by omega
    subst this
    exact ⟨by simpa [lowerBoundLoop] using hlen, by simpa [lowerBoundLoop] using hlo,
      by simpa [lowerBoundLoop] using hhi⟩
  | succ fuel ih =>
    intro first count hc hlen hlo hhi
    unfold lowerBoundLoop
    by_cases h0 : count = 0
    · subst h0
      simp only [if_true]
      exact ⟨by simpa using hlen, hlo, by simpa using hhi⟩
    · simp only [h0, if_false]
      have hstep : count / 2 < count := Nat.div_lt_self (by omega) (by decide)
      by_cases hlt : a.getD (first + count / 2) 0 < value
      · simp only [hlt, if_true]
        apply ih
        · omega
        · omega
        · intro i hi
          have := sorted_getD_le a hs i (first + count / 2) (by omega) (by omega)
          omega
        · intro i hi hil
          exact hhi i (by omega) hil
      · simp only [hlt, if_false]
        apply ih
        · omega
        · omega
        · exact hlo
        · intro i hi hil
          have := sorted_getD_le a hs (first + count / 2) i hi hil
          omega

/-- C19: on an ascending essential DOF list, also the empty one,
`IsEssential(idof, ess_dof_list)` is true if and only if `idof` occurs in the
list. -/
theorem IsEssential_iff_mem (idof : Nat) (ess_dof_list : List Nat)
    (hs : ess_dof_list.Sorted (fun x y => x ≤ y)) :
    SchwarzSmoother.IsEssential idof ess_dof_list = true ↔ idof ∈ ess_dof_list := by
  obtain ⟨hle, hlo, hhi⟩ := lowerBoundLoop_spec ess_dof_list idof hs ess_dof_list.length 0
    ess_dof_list.length le_rfl (by simp) (by simp) (by intro i h1 h2; omega)
  unfold SchwarzSmoother.IsEssential FindSorted lower_bound
  simp only []
  generalize lowerBoundLoop ess_dof_list idof ess_dof_list.length 0 ess_dof_list.length = r
    at hle hlo hhi ⊢
  by_cases hc : r = ess_dof_list.length ∨ ¬ ess_dof_list.getD r 0 = idof
  · rw [if_pos hc]
    constructor
    · intro h
      simp at h
    · intro hmem
      exfalso
      obtain ⟨i, hi, hia⟩ := List.getElem_of_mem hmem
      have hia' : ess_dof_list.getD i 0 = idof := by
        rw [List.getD_eq_getElem?_getD, List.getElem?_eq_getElem hi]
        simpa using hia
      have hri : r ≤ i := by
        by_contra hcon
        have := hlo i (by omega)
        omega
      have h1 := sorted_getD_le ess_dof_list hs r i hri hi
      have h2 := hhi r le_rfl (by omega)
      rcases hc with hc | hc
      · omega
      · exact hc (by omega)
  · rw [if_neg hc]
    simp only [not_or, not_not] at hc
    have hr : r < ess_dof_list.length := by omega
    have hne : ¬ ((r : Int) = -1) := by omega
    constructor
    · intro _
      rw [← hc.2, List.getD_eq_getElem?_getD, List.getElem?_eq_getElem hr]
      exact List.getElem_mem _
    · intro _
      simp [hne]

/-! ## One entity pass and the bounds of the writes -/

theorem entityCalls_proj_count (k : Nat) (dofs : List Nat) :
    ∀ contr : List Nat, contr.count k ≤ 1 →
      ((entityCalls contr dofs).filter (fun km => decide (km.1 = k))).map (fun km => km.2) =
        if k ∈ contr then dofs else []
  | [], _ => by simp [entityCalls]
  | a :: contr, h => by
    by_cases hak : a = k
    · subst hak
      have h0 : a ∉ contr := by
        rw [← List.count_eq_zero]
        simp only [List.count_cons_self] at h
        omega
      have h1 := entityCalls_proj_of_not_mem a dofs contr h0
      unfold entityCalls at h1 ⊢
      simp only [List.flatMap_cons, List.filter_append, List.map_append, h1, List.append_nil]
      simp [List.filter_map, Function.comp_def]
    · have hc : contr.count k ≤ 1 := by
        rw [List.count_cons_of_ne (fun e => hak e.symm)] at h
        exact h
      have ih := entityCalls_proj_count k dofs contr hc
      have hk : (k ∈ a :: contr) ↔ k ∈ contr := by
        simp only [List.mem_cons]
        constructor
        · rintro (e | e)
          · exact absurd e.symm hak
          · exact e
        · exact Or.inr
      unfold entityCalls at ih ⊢
      simp only [List.flatMap_cons, List.filter_append, List.map_append, ih, hk]
      simp [List.filter_map, Function.comp_def, hak]

/-- the effect of the pass of one entity on a patch whose counter is beyond every
used column of its matrix -/
theorem entityPass_get (st : AsmState) (contr dofs : List Nat) (k : Nat)
    (M : SparseMatrix) (c : Nat) (hk : contr.count k ≤ 1)
    (hM : st.Pid[k]? = some M) (hc : st.dofoffset[k]? = some c)
    (hfresh : ∀ e, e ∈ M.entries → e.2.1 < c) :
    (entityPass st contr dofs).Pid[k]? =
        some { M with entries := selection c (if k ∈ contr then dofs else []) ++ M.entries } ∧
      (entityPass st contr dofs).dofoffset[k]? =
        some (c + (if k ∈ contr then dofs else []).length) := by
  have h := foldl_stepCall_get k (entityCalls contr dofs) st M c hM hc
  rw [← entityPass_eq_calls, entityCalls_proj_count k dofs contr hk,
    foldl_localStep _ M c hfresh] at h
  exact h

theorem selection_col_lt (ms : List Nat) :
    ∀ (c : Nat) e, e ∈ selection c ms → e.2.1 < c + ms.length := by
  induction ms with
  | nil => intro c e he; simp [selection] at he
  | cons m ms ih =>
    intro c e he
    simp only [selection, List.mem_append, List.mem_singleton] at he
    rcases he with he | rfl
    · have := ih (c + 1) e he
      simp only [List.length_cons]
      omega
    · simp

/-- C17: at any point of the traversal (after any sequence `prior` of calls from
the initial state), the pass of one entity whose DOF list has no repeated index
and whose contribution set lists the patch `k` at most once appends to `Pid[k]`
columns that select pairwise distinct global DOFs, each DOF of the entity at most
once: it appends the DOF list of the entity once when `k` is in the contribution
set, and nothing otherwise. -/
theorem entity_pass_no_duplicate (nrpatch height : Nat) (prior : List (Nat × Nat))
    (contr dofs : List Nat) (k : Nat) (hk : k < nrpatch) (hdofs : dofs.Nodup)
    (hcount : contr.count k ≤ 1) :
    ∃ (M : SparseMatrix) (c : Nat) (app : List Nat),
      (prior.foldl stepCall
        { Pid := List.replicate nrpatch (SparseMatrix.square height)
          dofoffset := List.replicate nrpatch 0 }).Pid[k]? = some M ∧
      (prior.foldl stepCall
        { Pid := List.replicate nrpatch (SparseMatrix.square height)
          dofoffset := List.replicate nrpatch 0 }).dofoffset[k]? = some c ∧
      app = (if k ∈ contr then dofs else []) ∧ app.Nodup ∧ (∀ m, app.count m ≤ 1) ∧
      (entityPass (prior.foldl stepCall
        { Pid := List.replicate nrpatch (SparseMatrix.square height)
          dofoffset := List.replicate nrpatch 0 }) contr dofs).Pid[k]? =
        some { M with entries := selection c app ++ M.entries } ∧
      (entityPass (prior.foldl stepCall
        { Pid := List.replicate nrpatch (SparseMatrix.square height)
          dofoffset := List.replicate nrpatch 0 }) contr dofs).dofoffset[k]? =
        some (c + app.length) := by
  have h0 := foldl_stepCall_get k prior
    { Pid := List.replicate nrpatch (SparseMatrix.square height)
      dofoffset := List.replicate nrpatch 0 }
    (SparseMatrix.square height) 0
    (by simp [List.getElem?_replicate, hk]) (by simp [List.getElem?_replicate, hk])
  rw [foldl_localStep _ _ _ (by simp [SparseMatrix.square])] at h0
  obtain ⟨h1, h2⟩ := h0
  have happ : (if k ∈ contr then dofs else []).Nodup := by
    split
    · exact hdofs
    · exact List.nodup_nil
  have hpass := entityPass_get _ contr dofs k _ _ hcount h1 h2 (by
    intro e he
    simp only [SparseMatrix.square, List.append_nil] at he
    exact selection_col_lt _ 0 e he)
  exact ⟨_, _, _, h1, h2, rfl, happ, fun m => List.nodup_iff_count_le_one.mp happ m,
    hpass.1, hpass.2⟩

theorem mem_setCalls (patches : patch_nod_info) (fespace : FiniteElementSpace) (k m : Nat)
    (h : (k, m) ∈ setCalls patches fespace) :
    (∃ s, s ∈ patches.vertex_contr ++ patches.edge_contr ++ patches.face_contr ++
        patches.elem_contr ∧ k ∈ s) ∧ m ∈ allDofs fespace := by
  have aux : ∀ (n : Nat) (contr : List (List Nat)) (dofs : Nat → List Nat),
      (k, m) ∈ kindCalls n contr dofs →
        (∃ s, s ∈ contr ∧ k ∈ s) ∧ m ∈ (List.range n).flatMap dofs := by
    intro n contr dofs hkm
    obtain ⟨i, hi, hki, hmi⟩ := (mem_kindCalls k m n contr dofs).mp hkm
    refine ⟨⟨contr.getD i [], ?_, hki⟩, ?_⟩
    · rw [List.getD_eq_getElem?_getD] at hki ⊢
      cases hci : contr[i]? with
      | none => rw [hci] at hki; simp at hki
      | some s => exact List.getElem?_mem hci
    · exact List.mem_flatMap.mpr ⟨i, List.mem_range.mpr hi, hmi⟩
  unfold setCalls at h
  unfold allDofs
  simp only [List.mem_append] at h ⊢
  rcases h with ((h | h) | h) | h
  · obtain ⟨⟨s, hs, hks⟩, hm⟩ := aux _ _ _ h
    exact ⟨⟨s, Or.inl (Or.inl (Or.inl hs)), hks⟩, Or.inl (Or.inl (Or.inl hm))⟩
  · obtain ⟨⟨s, hs, hks⟩, hm⟩ := aux _ _ _ h
    exact ⟨⟨s, Or.inl (Or.inl (Or.inr hs)), hks⟩, Or.inl (Or.inl (Or.inr hm))⟩
  · obtain ⟨⟨s, hs, hks⟩, hm⟩ := aux _ _ _ h
    exact ⟨⟨s, Or.inl (Or.inr hs), hks⟩, Or.inl (Or.inr hm)⟩
  · obtain ⟨⟨s, hs, hks⟩, hm⟩ := aux _ _ _ h
    exact ⟨⟨s, Or.inr hs, hks⟩, Or.inr hm⟩

theorem kindDofs_sublist (k : Nat) (contr : List (List Nat)) (dofs : Nat → List Nat) :
    ∀ l : List Nat,
      (l.flatMap (fun i => if k ∈ contr.getD i [] then dofs i else [])).Sublist (l.flatMap dofs)
  | [] => by simp
  | a :: l => by
    rw [List.flatMap_cons, List.flatMap_cons]
    apply List.Sublist.append _ (kindDofs_sublist k contr dofs l)
    split
    · exact List.Sublist.refl _
    · exact List.nil_sublist _

theorem patchDofs_sublist (patches : patch_nod_info) (fespace : FiniteElementSpace) (k : Nat) :
    (patchDofs patches fespace k).Sublist (allDofs fespace) := by
  unfold patchDofs allDofs kindDofs
  exact ((((kindDofs_sublist k _ _ _).append (kindDofs_sublist k _ _ _)).append
    (kindDofs_sublist k _ _ _)).append (kindDofs_sublist k _ _ _))

theorem length_le_of_nodup_bounded (l : List Nat) (n : Nat) (hnd : l.Nodup)
    (hb : ∀ x, x ∈ l → x < n) : l.length ≤ n := by
  have h1 : l.toFinset ⊆ Finset.range n := by
    intro x hx
    exact Finset.mem_range.mpr (hb x (List.mem_toFinset.mp hx))
  have h2 := Finset.card_le_card h1
  rw [List.toFinset_card_of_nodup hnd, Finset.card_range] at h2
  exact h2

theorem writesInBounds_of_budget (height N : Nat) :
    ∀ (calls : List (Nat × Nat)) (st : AsmState),
      st.Pid.length = N → st.dofoffset.length = N →
      (∀ km, km ∈ calls → km.1 < N ∧ km.2 < height) →
      (∀ k, k < N → st.dofoffset.getD k 0 +
        ((calls.filter (fun km => decide (km.1 = k))).map (fun km => km.2)).length ≤ height) →
      WritesInBounds height st calls
  | [], _, _, _, _, _ => trivial
  | (k, m) :: calls, st, hP, hD, hcalls, hbud => by
    have hkm := hcalls (k, m) (List.mem_cons_self _ _)
    have hb := hbud k hkm.1
    simp only [List.filter_cons, decide_True, if_true, List.map_cons, List.length_cons] at hb
    refine ⟨⟨by rw [hP]; exact hkm.1, hkm.2, by show st.dofoffset.getD k 0 < height; omega⟩, ?_⟩
    apply writesInBounds_of_budget height N calls
    · simp [stepCall, appendDof, hP]
    · simp [stepCall, appendDof, hD]
    · intro km hkm'
      exact hcalls km (List.mem_cons_of_mem _ hkm')
    · intro k' hk'
      have hb' := hbud k' hk'
      have hget : (stepCall st (k, m)).dofoffset.getD k' 0 =
          if k = k' then st.dofoffset.getD k' 0 + 1 else st.dofoffset.getD k' 0 := by
        have hlt : k' < st.dofoffset.length := by rw [hD]; exact hk'
        simp only [stepCall, appendDof, List.getD_eq_getElem?_getD, List.getElem?_modify,
          List.getElem?_eq_getElem hlt]
        by_cases hkk : k = k' <;> simp [hkk]
      rw [hget]
      by_cases hkk : k = k'
      · subst hkk
        simp only [List.filter_cons, decide_True, if_true, List.map_cons, List.length_cons] at hb'
        simp only [if_true]
        omega
      · simp only [List.filter_cons, hkk, decide_False, if_false] at hb'
        simp only [hkk, if_false]
        exact hb'

/-- C20: when every contribution set entry is a patch index below `nrpatch`,
every enumerated DOF is below `GetVSize()`, no DOF is enumerated twice (by two
entities or twice by one) and no contribution set lists a patch twice, every
`Set(m, dofoffset[k], 1.0)` of the constructor writes in bounds, its column
`dofoffset[k]` being below the allocated `height`, and the final width of every
`Pid[k]` is at most the global DOF count. -/
theorem writes_in_bounds (patches : patch_nod_info) (ref_levels_ : Int)
    (fespace : FiniteElementSpace)
    (hpatch : ∀ s, s ∈ patches.vertex_contr ++ patches.edge_contr ++ patches.face_contr ++
      patches.elem_contr → ∀ k, k ∈ s → k < patches.nrpatch)
    (hdof : ∀ m, m ∈ allDofs fespace → m < fespace.vsize)
    (huniq : (allDofs fespace).Nodup)
    (hnodup : NoRepeat patches) :
    WritesInBounds fespace.vsize
        { Pid := List.replicate patches.nrpatch (SparseMatrix.square fespace.vsize)
          dofoffset := List.replicate patches.nrpatch 0 }
        (setCalls patches fespace) ∧
      fillPid patches fespace =
        (setCalls patches fespace).foldl stepCall
          { Pid := List.replicate patches.nrpatch (SparseMatrix.square fespace.vsize)
            dofoffset := List.replicate patches.nrpatch 0 } ∧
      ∀ k, k < patches.nrpatch →
        ∃ M, (patch_assembly.build patches ref_levels_ fespace).Pid[k]? = some M ∧
          M.width ≤ fespace.vsize := by
  have hlen : ∀ k, (appendedDofs patches fespace k).length ≤ fespace.vsize := by
    intro k
    rw [appendedDofs_eq_patchDofs patches fespace k hnodup]
    have hsub := patchDofs_sublist patches fespace k
    exact length_le_of_nodup_bounded _ _ (List.Nodup.sublist hsub huniq)
      (fun x hx => hdof x (hsub.subset hx))
  refine ⟨?_, fillPid_eq_calls patches fespace, ?_⟩
  · apply writesInBounds_of_budget fespace.vsize patches.nrpatch
    · simp
    · simp
    · rintro ⟨k, m⟩ hkm
      obtain ⟨⟨s, hs, hks⟩, hm⟩ := mem_setCalls patches fespace k m hkm
      exact ⟨hpatch s hs k hks, hdof m hm⟩
    · intro k hk
      have := hlen k
      unfold appendedDofs at this
      simp only [List.getD_eq_getElem?_getD, List.getElem?_replicate, hk, if_true,
        Option.getD_some]
      omega
  · intro k hk
    exact ⟨_, build_Pid_get patches ref_levels_ fespace k hk, hlen k⟩

/-! ## The local matrices -/

theorem wsum_nil (f : Nat → ℚ) : wsum [] f = 0 := rfl

theorem wsum_cons (e : Nat × ℚ) (row : List (Nat × ℚ)) (f : Nat → ℚ) :
    wsum (e :: row) f = e.2 * f e.1 + wsum row f := by
  simp [wsum]

theorem wsum_append (r₁ r₂ : List (Nat × ℚ)) (f : Nat → ℚ) :
    wsum (r₁ ++ r₂) f = wsum r₁ f + wsum r₂ f := by
  simp [wsum]

theorem wsum_add (row : List (Nat × ℚ)) (f g : Nat → ℚ) :
    wsum row (fun k => f k + g k) = wsum row f + wsum row g := by
  induction row with
  | nil => simp [wsum_nil]
  | cons e row ih => rw [wsum_cons, wsum_cons, wsum_cons, ih]; ring

theorem wsum_mul (row : List (Nat × ℚ)) (c : ℚ) (f : Nat → ℚ) :
    wsum row (fun k => c * f k) = c * wsum row f := by
  induction row with
  | nil => simp [wsum_nil]
  | cons e row ih => rw [wsum_cons, wsum_cons, ih]; ring

theorem wsum_zero (row : List (Nat × ℚ)) : wsum row (fun _ => 0) = 0 := by
  induction row with
  | nil => rfl
  | cons e row ih => rw [wsum_cons, ih]; ring

theorem wsum_congr (row : List (Nat × ℚ)) (f g : Nat → ℚ) (h : ∀ k, f k = g k) :
    wsum row f = wsum row g := by
  have : f = g := funext h
  rw [this]

/-- the order of a double sum over two rows can be exchanged -/
theorem wsum_comm (X Y : List (Nat × ℚ)) (F : Nat → Nat → ℚ) :
    wsum X (fun a => wsum Y (fun b => F a b)) = wsum Y (fun b => wsum X (fun a => F a b)) := by
  induction X with
  | nil => simp [wsum_nil, wsum_zero]
  | cons e X ih =>
    simp only [wsum_cons]
    rw [wsum_add, wsum_mul, ih]

theorem wsum_addTo (f : Nat → ℚ) (j : Nat) (val : ℚ) :
    ∀ acc : List (Nat × ℚ), wsum (addTo acc j val) f = wsum acc f + val * f j
  | [] => by simp [addTo, wsum]
  | (c, a) :: t => by
    unfold addTo
    split
    · rename_i h
      subst h
      simp only [wsum_cons]
      ring
    · simp only [wsum_cons, wsum_addTo f j val t]
      ring

theorem wsum_foldl_addTo (f : Nat → ℚ) (a : ℚ) :
    ∀ (brow acc : List (Nat × ℚ)),
      wsum (brow.foldl (fun acc jb => addTo acc jb.1 (a * jb.2)) acc) f =
        wsum acc f + a * wsum brow f
  | [], acc => by simp [wsum_nil]
  | e :: brow, acc => by
    rw [List.foldl_cons, wsum_foldl_addTo f a brow, wsum_addTo, wsum_cons]
    ring

theorem wsum_prodRow_aux (B : SparseMatrix) (f : Nat → ℚ) :
    ∀ (arow acc : List (Nat × ℚ)),
      wsum (arow.foldl
        (fun acc ka => (B.rowEntries ka.1).foldl (fun acc jb => addTo acc jb.1 (ka.2 * jb.2)) acc)
        acc) f =
        wsum acc f + wsum arow (fun k => wsum (B.rowEntries k) f)
  | [], acc => by simp [wsum_nil]
  | e :: arow, acc => by
    rw [List.foldl_cons, wsum_prodRow_aux B f arow, wsum_foldl_addTo, wsum_cons]
    ring

/-- a weighted sum over a row of the product `A · B` -/
theorem wsum_prodRow (A B : SparseMatrix) (i : Nat) (f : Nat → ℚ) :
    wsum (prodRow A B i) f = wsum (A.rowEntries i) (fun k => wsum (B.rowEntries k) f) := by
  unfold prodRow
  rw [wsum_prodRow_aux, wsum_nil, zero_add]

theorem sum_filter_and {α : Type} (p q : α → Bool) (g : α → ℚ) :
    ∀ es : List α, ((es.filter (fun e => p e && q e)).map g).sum =
      ((es.filter p).map (fun e => if q e = true then g e else 0)).sum
  | [] => rfl
  | e :: es => by
    have ih := sum_filter_and p q g es
    cases hp : p e <;> cases hq : q e <;> simp [List.filter_cons, hp, hq, ih]

theorem value_eq_wsum (M : SparseMatrix) (i j : Nat) :
    M.value i j = wsum (M.rowEntries i) (fun c => if c = j then 1 else 0) := by
  unfold SparseMatrix.value SparseMatrix.rowEntries wsum
  have h := sum_filter_and (fun e : Nat × Nat × ℚ => decide (e.1 = i))
    (fun e => decide (e.2.1 = j)) (fun e => e.2.2) M.entries
  simp only [← Bool.decide_and] at h
  rw [h, List.map_map]
  congr 1
  apply List.map_congr_left
  intro e _
  by_cases hj : e.2.1 = j <;> simp [hj]

theorem rowEntries_Mult (A B : SparseMatrix) (i : Nat) :
    (Mult A B).rowEntries i = if i < A.height then prodRow A B i else [] := by
  unfold Mult SparseMatrix.rowEntries
  simp only
  have key : ∀ l : List Nat, l.Nodup →
      ((l.flatMap (fun i' => (prodRow A B i').map (fun e => (i', e.1, e.2)))).filter
        (fun e => decide (e.1 = i))).map (fun e => e.2) =
        if i ∈ l then prodRow A B i else [] := by
    intro l
    induction l with
    | nil => intro _; simp
    | cons a l ih =>
      intro hnd
      have hnd' := List.nodup_cons.mp hnd
      rw [List.flatMap_cons, List.filter_append, List.map_append, ih hnd'.2]
      by_cases hai : a = i
      · subst hai
        simp [hnd'.1, List.filter_map, Function.comp_def]
      · have hia : ¬ i = a := fun e => hai e.symm
        simp [hai, hia, List.filter_map, Function.comp_def]
  rw [key _ (List.nodup_range _)]
  simp

theorem rowEntries_Transpose (R : SparseMatrix) (j : Nat) :
    (Transpose R).rowEntries j =
      (R.entries.filter (fun e => decide (e.2.1 = j))).map (fun e => (e.1, e.2.2)) := by
  unfold Transpose SparseMatrix.rowEntries
  simp [List.filter_map, Function.comp_def]

/-- the entry `(k, j)` of `R` as a sum over row `j` of `Rᵀ` -/
theorem value_eq_wsum_Transpose (R : SparseMatrix) (k j : Nat) :
    R.value k j = wsum ((Transpose R).rowEntries j) (fun k' => if k' = k then 1 else 0) := by
  rw [rowEntries_Transpose]
  unfold SparseMatrix.value wsum
  have h := sum_filter_and (fun e : Nat × Nat × ℚ => decide (e.2.1 = j))
    (fun e => decide (e.1 = k)) (fun e => e.2.2) R.entries
  have hf : (fun e : Nat × Nat × ℚ => decide (e.1 = k ∧ e.2.1 = j)) =
      (fun e => decide (e.2.1 = j) && decide (e.1 = k)) := by
    funext e
    rw [Bool.decide_and, Bool.and_comm]
  rw [hf, h, List.map_map]
  congr 1
  apply List.map_congr_left
  intro e _
  by_cases hk : e.1 = k <;> simp [hk]

/-- the entries of `Rᵀ A R` as double sums over the rows of `Rᵀ` -/
theorem value_RAP (R A : SparseMatrix) (i j : Nat) (hi : i < R.width) :
    (RAP R A R).value i j =
      wsum ((Transpose R).rowEntries i)
        (fun m => wsum ((Transpose R).rowEntries j) (fun k => A.value m k)) := by
  have h1 : (Mult (Transpose R) A).height = R.width := rfl
  rw [value_eq_wsum]
  unfold RAP
  rw [rowEntries_Mult, if_pos (by rw [h1]; exact hi), wsum_prodRow, rowEntries_Mult,
    if_pos (show i < (Transpose R).height from hi), wsum_prodRow]
  apply wsum_congr
  intro m
  have e1 : ∀ k, wsum (R.rowEntries k) (fun c => if c = j then 1 else 0) =
      wsum ((Transpose R).rowEntries j) (fun k' => if k' = k then 1 else 0) := by
    intro k
    rw [← value_eq_wsum, value_eq_wsum_Transpose]
  have e2 : ∀ k, A.value m k = wsum (A.rowEntries m) (fun c => if c = k then 1 else 0) :=
    fun k => value_eq_wsum A m k
  simp only [e1, e2]
  rw [wsum_comm]
  apply wsum_congr
  intro k
  apply wsum_congr
  intro c
  by_cases hkc : k = c
  · simp [hkc]
  · have hck : ¬ c = k := fun e => hkc e.symm
    simp [hkc, hck]

theorem RAP_symmetric (R A : SparseMatrix) (hA : A.IsSymmetric) (i j : Nat)
    (hi : i < R.width) (hj : j < R.width) :
    (RAP R A R).value i j = (RAP R A R).value j i := by
  rw [value_RAP R A i j hi, value_RAP R A j i hj, wsum_comm]
  apply wsum_congr
  intro k
  apply wsum_congr
  intro m
  exact hA m k

theorem keys_addTo (j : Nat) (val : ℚ) :
    ∀ acc : List (Nat × ℚ), (acc.map (fun e => e.1)).Nodup →
      ((addTo acc j val).map (fun e => e.1)).Nodup ∧
        ∀ c, c ∈ (addTo acc j val).map (fun e => e.1) ↔ c = j ∨ c ∈ acc.map (fun e => e.1)
  | [], _ => by simp [addTo]
  | (c', a) :: t, h => by
    simp only [List.map_cons, List.nodup_cons] at h
    unfold addTo
    split
    · rename_i hc
      subst hc
      refine ⟨by simpa using h, ?_⟩
      intro c
      simp
    · rename_i hc
      obtain ⟨ih1, ih2⟩ := keys_addTo j val t h.2
      refine ⟨?_, ?_⟩
      · simp only [List.map_cons, List.nodup_cons]
        refine ⟨?_, ih1⟩
        rw [ih2]
        rintro (e | e)
        · exact hc e
        · exact h.1 e
      · intro c
        simp only [List.map_cons, List.mem_cons, ih2]
        tauto

theorem keys_foldl_addTo (a : ℚ) :
    ∀ (brow acc : List (Nat × ℚ)), (acc.map (fun e => e.1)).Nodup →
      ((brow.foldl (fun acc jb => addTo acc jb.1 (a * jb.2)) acc).map (fun e => e.1)).Nodup
  | [], _, h => h
  | e :: brow, acc, h => by
    rw [List.foldl_cons]
    exact keys_foldl_addTo a brow _ (keys_addTo e.1 (a * e.2) acc h).1

theorem keys_prodRow_aux (B : SparseMatrix) :
    ∀ (arow acc : List (Nat × ℚ)), (acc.map (fun e => e.1)).Nodup →
      ((arow.foldl
        (fun acc ka => (B.rowEntries ka.1).foldl (fun acc jb => addTo acc jb.1 (ka.2 * jb.2)) acc)
        acc).map (fun e => e.1)).Nodup
  | [], _, h => h
  | e :: arow, acc, h => by
    rw [List.foldl_cons]
    exact keys_prodRow_aux B arow _ (keys_foldl_addTo e.2 _ acc h)

/-- the rows of a product store every column once -/
theorem nodup_columns_Mult (A B : SparseMatrix) (i : Nat) :
    ((Mult A B).GetRowColumns i).Nodup := by
  unfold SparseMatrix.GetRowColumns
  rw [rowEntries_Mult]
  split
  · exact keys_prodRow_aux B _ [] List.nodup_nil
  · exact List.nodup_nil

theorem wsum_eq_zero_of_not_mem (j : Nat) :
    ∀ row : List (Nat × ℚ), j ∉ row.map (fun e => e.1) →
      wsum row (fun c => if c = j then 1 else 0) = 0
  | [], _ => rfl
  | e :: row, h => by
    simp only [List.map_cons, List.mem_cons, not_or] at h
    have hne : ¬ e.1 = j := fun he => h.1 he.symm
    rw [wsum_cons, wsum_eq_zero_of_not_mem j row h.2]
    simp [hne]

theorem find_eq_wsum (j : Nat) :
    ∀ row : List (Nat × ℚ), (row.map (fun e => e.1)).Nodup →
      (match row.find? (fun e => decide (e.1 = j)) with
        | some e => e.2
        | none => 0) = wsum row (fun c => if c = j then 1 else 0)
  | [], _ => rfl
  | e :: row, hnd => by
    simp only [List.map_cons, List.nodup_cons] at hnd
    rw [wsum_cons, List.find?_cons]
    by_cases hej : e.1 = j
    · subst hej
      rw [wsum_eq_zero_of_not_mem _ row hnd.1]
      simp
    · have hd : decide (e.1 = j) = false := by simpa using hej
      rw [hd, if_neg hej, mul_zero, zero_add]
      exact find_eq_wsum j row hnd.2

/-- on a row that stores every column once the first stored value is the entry -/
theorem Elem_eq_value (M : SparseMatrix) (i j : Nat) (hnd : (M.GetRowColumns i).Nodup) :
    M.Elem i j = M.value i j := by
  rw [value_eq_wsum]
  exact find_eq_wsum j (M.rowEntries i) hnd

theorem SchwarzSmoother_new_some (H : Hierarchy) (UMFPackSolver : SparseMatrix → List ℚ → List ℚ)
    (sType_ : SmootherType) (cmesh_ : Mesh) (ref_levels_ : Int) (fespace : FiniteElementSpace)
    (A_ : SparseMatrix) (ess_dof_list : List Nat) (S : SchwarzSmoother)
    (hnew : SchwarzSmoother.new H UMFPackSolver sType_ cmesh_ ref_levels_ fespace A_
      ess_dof_list = some S) :
    ∃ patches, patch_nod_info.new H cmesh_ ref_levels_ ess_dof_list = some patches ∧
      S.P = patch_assembly.build patches ref_levels_ fespace ∧
      S.nrpatch = patches.nrpatch ∧
      S.sType = sType_ ∧
      S.A_local = (List.range S.nrpatch).map (fun i =>
        RAP (S.P.Pid.getD i (SparseMatrix.square 0)) A_
          (S.P.Pid.getD i (SparseMatrix.square 0))) ∧
      S.invA_local = fun i => UMFPackSolver (S.A_local.getD i (SparseMatrix.square 0)) := by
  unfold SchwarzSmoother.new patch_assembly.new at hnew
  cases hp : patch_nod_info.new H cmesh_ ref_levels_ ess_dof_list with
  | none => simp [hp] at hnew
  | some patches =>
    simp only [hp, Option.some.injEq] at hnew
    subst hnew
    exact ⟨patches, rfl, rfl, rfl, rfl, rfl, rfl⟩

/-- C16: in a smoother built by the constructor, for every patch `k` the local
matrix `A_local[k]` is `R_kᵀ A R_k` with `R_k = Pid[k]`, it is square of size
`width(R_k)`, and when the global matrix `A` is symmetric its entries `(i, j)`
and `(j, i)` are equal. -/
theorem A_local_square_symmetric (H : Hierarchy)
    (UMFPackSolver : SparseMatrix → List ℚ → List ℚ) (sType_ : SmootherType) (cmesh_ : Mesh)
    (ref_levels_ : Int) (fespace : FiniteElementSpace) (A_ : SparseMatrix)
    (ess_dof_list : List Nat) (S : SchwarzSmoother)
    (hnew : SchwarzSmoother.new H UMFPackSolver sType_ cmesh_ ref_levels_ fespace A_
      ess_dof_list = some S) :
    ∀ k, k < S.nrpatch →
      ∃ Pr Ak, S.P.Pid[k]? = some Pr ∧ S.A_local[k]? = some Ak ∧ Ak = RAP Pr A_ Pr ∧
        Ak.height = Pr.width ∧ Ak.width = Pr.width ∧
        (A_.IsSymmetric → ∀ i j, i < Pr.width → j < Pr.width →
          Ak.value i j = Ak.value j i ∧ Ak.Elem i j = Ak.Elem j i) := by
  intro k hk
  obtain ⟨patches, -, hP, hn, -, hA, -⟩ :=
    SchwarzSmoother_new_some H UMFPackSolver sType_ cmesh_ ref_levels_ fespace A_ ess_dof_list S hnew
  have hPid := build_Pid_get patches ref_levels_ fespace k (by rw [← hn]; exact hk)
  rw [← hP] at hPid
  obtain ⟨Pr, hPid⟩ : ∃ Pr, S.P.Pid[k]? = some Pr := ⟨_, hPid⟩
  have hget : S.P.Pid.getD k (SparseMatrix.square 0) = Pr := by
    rw [List.getD_eq_getElem?_getD, hPid]
    rfl
  refine ⟨Pr, RAP Pr A_ Pr, hPid, ?_, rfl, rfl, rfl, ?_⟩
  · rw [hA, List.getElem?_map, List.getElem?_range hk, Option.map_some', hget]
  · intro hsym i j hi hj
    have hv := RAP_symmetric _ A_ hsym i j hi hj
    refine ⟨hv, ?_⟩
    have hnd : ∀ r, ((RAP Pr A_ Pr).GetRowColumns r).Nodup :=
      fun r => nodup_columns_Mult _ _ r
    rw [Elem_eq_value _ i j (hnd i), Elem_eq_value _ j i (hnd j)]
    exact hv

theorem value_eq_sum_ite (M : SparseMatrix) (i j : Nat) :
    M.value i j =
      (M.entries.map (fun e => if e.1 = i ∧ e.2.1 = j then e.2.2 else 0)).sum := by
  unfold SparseMatrix.value
  induction M.entries with
  | nil => rfl
  | cons e es ih =>
    by_cases h : e.1 = i ∧ e.2.1 = j
    · rw [List.filter_cons_of_pos (by simpa using h), List.map_cons, List.sum_cons, ih,
        List.map_cons, List.sum_cons, if_pos h]
    · rw [List.filter_cons_of_neg (by simpa using h), ih, List.map_cons, List.sum_cons,
        if_neg h, zero_add]

theorem exA_symmetric : exA.IsSymmetric := by
  intro i j
  rw [value_eq_sum_ite, value_eq_sum_ite]
  simp only [exA, List.map_cons, List.map_nil, List.sum_cons, List.sum_nil]
  simp only [and_comm]
  ring

theorem exNewSmoother_eq :
    SchwarzSmoother.new exH (fun _ x => x) SmootherType.ADDITIVE exCoarse 1 exSpace exA [] =
      some exNewSmoother := by
  simp only [SchwarzSmoother.new, patch_assembly.new, exInfo_eq]
  rfl

/-! ## The later statements on concrete data -/

/-- C12, witness of the amended statement: the smoother `exMultiplicative`. -/
theorem Mult_unimplemented_kinds_return_zero_witness :
    (exMultiplicative.sType = SmootherType.MULTIPLICATIVE ∨
      exMultiplicative.sType = SmootherType.SYM_MULTIPLICATIVE) ∧
    exMultiplicative.Mult [1, 2, 3, 4, 5] [9, 9, 9, 9, 9] =
      List.replicate [(9 : ℚ), 9, 9, 9, 9].length 0 :=
  ⟨Or.inl rfl,
    Mult_unimplemented_kinds_return_zero exMultiplicative [1, 2, 3, 4, 5] [9, 9, 9, 9, 9]
      (Or.inl rfl)⟩

/-- C13, witness: the depth `-1` on the one-segment mesh. -/
theorem negative_depth_null_dereference_witness :
    (-1 : Int) < 0 ∧
    (refineLoop exH (-1 : Int).toNat (exCoarse, none) = (exCoarse, none) ∧
    patch_nod_info.new exH exCoarse (-1) [] = none ∧
    patch_assembly.new exH exCoarse (-1) exSpace [] = none ∧
    SchwarzSmoother.new exH (fun _ x => x) SmootherType.ADDITIVE exCoarse (-1) exSpace exA [] =
      none) :=
  ⟨by decide,
    negative_depth_null_dereference exH (fun _ x => x) SmootherType.ADDITIVE exCoarse (-1)
      exSpace exA [] (by decide)⟩

/-- C15, witness: two initial vectors of size five. -/
theorem Mult_independent_of_initial_z_witness :
    [(9 : ℚ), 9, 9, 9, 9].length = [(0 : ℚ), 1, 2, 3, 4].length ∧
    exSmoother.Mult [1, 2, 3, 4, 5] [9, 9, 9, 9, 9] =
      exSmoother.Mult [1, 2, 3, 4, 5] [0, 1, 2, 3, 4] :=
  ⟨rfl, Mult_independent_of_initial_z exSmoother [1, 2, 3, 4, 5] [9, 9, 9, 9, 9]
    [0, 1, 2, 3, 4] rfl⟩

/-- C16, witness: the smoother built on the refined segment with the matrix `exA`. -/
theorem A_local_square_symmetric_witness :
    SchwarzSmoother.new exH (fun _ x => x) SmootherType.ADDITIVE exCoarse 1 exSpace exA [] =
      some exNewSmoother ∧
    ∀ k, k < exNewSmoother.nrpatch →
      ∃ Pr Ak, exNewSmoother.P.Pid[k]? = some Pr ∧ exNewSmoother.A_local[k]? = some Ak ∧
        Ak = RAP Pr exA Pr ∧ Ak.height = Pr.width ∧ Ak.width = Pr.width ∧
        (exA.IsSymmetric → ∀ i j, i < Pr.width → j < Pr.width →
          Ak.value i j = Ak.value j i ∧ Ak.Elem i j = Ak.Elem j i) :=
  ⟨exNewSmoother_eq,
    A_local_square_symmetric exH (fun _ x => x) SmootherType.ADDITIVE exCoarse 1 exSpace exA []
      exNewSmoother exNewSmoother_eq⟩

/-- C17, witness: the pass of an edge with DOFs `3, 4` and contribution set
`0, 1`, after the calls of two vertices, for two patches on five DOFs. -/
theorem entity_pass_no_duplicate_witness :
    (0 < 2 ∧ [3, 4].Nodup ∧ [0, 1].count 0 ≤ 1) ∧
    ∃ (M : SparseMatrix) (c : Nat) (app : List Nat),
      ([(0, 0), (1, 1)].foldl stepCall
        { Pid := List.replicate 2 (SparseMatrix.square 5)
          dofoffset := List.replicate 2 0 }).Pid[0]? = some M ∧
      ([(0, 0), (1, 1)].foldl stepCall
        { Pid := List.replicate 2 (SparseMatrix.square 5)
          dofoffset := List.replicate 2 0 }).dofoffset[0]? = some c ∧
      app = (if 0 ∈ [0, 1] then [3, 4] else []) ∧ app.Nodup ∧ (∀ m, app.count m ≤ 1) ∧
      (entityPass ([(0, 0), (1, 1)].foldl stepCall
        { Pid := List.replicate 2 (SparseMatrix.square 5)
          dofoffset := List.replicate 2 0 }) [0, 1] [3, 4]).Pid[0]? =
        some { M with entries := selection c app ++ M.entries } ∧
      (entityPass ([(0, 0), (1, 1)].foldl stepCall
        { Pid := List.replicate 2 (SparseMatrix.square 5)
          dofoffset := List.replicate 2 0 }) [0, 1] [3, 4]).dofoffset[0]? =
        some (c + app.length) :=
  ⟨⟨by decide, by decide, by decide⟩,
    entity_pass_no_duplicate 2 5 [(0, 0), (1, 1)] [0, 1] [3, 4] 0 (by decide) (by decide)
      (by decide)⟩

/-- C18, witness: two refinements of the one-segment mesh. -/
theorem composed_operator_order_witness :
    (1 : Int) ≤ 2 ∧
    (refineLoop exH (2 : Int).toNat (exCoarse, none) =
        (levelMesh exH exCoarse (2 : Int).toNat,
          some (composedP exH exCoarse ((2 : Int).toNat - 1))) ∧
      composedP exH exCoarse 0 = levelP exH exCoarse 1 ∧
      ∀ n, composedP exH exCoarse (n + 1) =
        Mult (levelP exH exCoarse (n + 2)) (composedP exH exCoarse n)) :=
  ⟨by decide, composed_operator_order exH exCoarse 2 (by decide)⟩

/-- C19, witness: the list `1, 3, 5, 7` and the DOF `5`. -/
theorem IsEssential_iff_mem_witness :
    [1, 3, 5, 7].Sorted (fun x y => x ≤ y) ∧
    (SchwarzSmoother.IsEssential 5 [1, 3, 5, 7] = true ↔ 5 ∈ [1, 3, 5, 7]) :=
  ⟨by decide, IsEssential_iff_mem 5 [1, 3, 5, 7] (by decide)⟩

theorem exInfo_patch_range : ∀ s, s ∈ exInfo.vertex_contr ++ exInfo.edge_contr ++
    exInfo.face_contr ++ exInfo.elem_contr → ∀ k, k ∈ s → k < exInfo.nrpatch := by
  decide

theorem exSpace_dof_range : ∀ m, m ∈ allDofs exSpace → m < exSpace.vsize := by
  decide

theorem exSpace_dofs_nodup : (allDofs exSpace).Nodup := by
  decide

/-- C20, witness: the quadratic space on the refined segment. -/
theorem writes_in_bounds_witness :
    (allDofs exSpace).Nodup ∧ NoRepeat exInfo ∧
    (WritesInBounds exSpace.vsize
        { Pid := List.replicate exInfo.nrpatch (SparseMatrix.square exSpace.vsize)
          dofoffset := List.replicate exInfo.nrpatch 0 }
        (setCalls exInfo exSpace) ∧
      fillPid exInfo exSpace =
        (setCalls exInfo exSpace).foldl stepCall
          { Pid := List.replicate exInfo.nrpatch (SparseMatrix.square exSpace.vsize)
            dofoffset := List.replicate exInfo.nrpatch 0 } ∧
      ∀ k, k < exInfo.nrpatch →
        ∃ M, (patch_assembly.build exInfo 1 exSpace).Pid[k]? = some M ∧
          M.width ≤ exSpace.vsize) :=
  ⟨exSpace_dofs_nodup, exInfo_noRepeat,
    writes_in_bounds exInfo 1 exSpace exInfo_patch_range exSpace_dof_range exSpace_dofs_nodup
      exInfo_noRepeat⟩

/-! ## A residual larger than the space -/

theorem getD_take_of_lt (r : List ℚ) (N i : Nat) (hi : i < N) :
    (r.take N).getD i 0 = r.getD i 0 := by
  rw [List.getD_eq_getElem?_getD, List.getD_eq_getElem?_getD, List.getElem?_take_of_lt hi]

/-- the restriction reads the residual only at the rows of the stored entries -/
theorem MultTranspose_take (M : SparseMatrix) (r : List ℚ) (N w : Nat)
    (hrows : ∀ e, e ∈ M.entries → e.1 < N) :
    M.MultTranspose (r.take N) w = M.MultTranspose r w := by
  unfold SparseMatrix.MultTranspose
  apply List.map_congr_left
  intro j _
  congr 1
  apply List.map_congr_left
  intro e he
  rw [getD_take_of_lt r N e.1 (hrows e (List.mem_filter.mp he).1)]

/-- the prolongation writes nothing at or beyond the rows of the stored entries -/
theorem Mult_pad (M : SparseMatrix) (x : List ℚ) (N L : Nat) (hNL : N ≤ L)
    (hrows : ∀ e, e ∈ M.entries → e.1 < N) :
    M.Mult x L = M.Mult x N ++ List.replicate (L - N) 0 := by
  unfold SparseMatrix.Mult
  apply List.ext_getElem?
  intro i
  by_cases hiN : i < N
  · rw [List.getElem?_append_left (by simpa using hiN), List.getElem?_map, List.getElem?_map,
      List.getElem?_range hiN, List.getElem?_range (by omega)]
  · by_cases hiL : i < L
    · rw [List.getElem?_append_right (by simpa using hiN), List.getElem?_map,
        List.getElem?_range hiL, List.getElem?_replicate]
      have hlt : i - (List.map (fun i =>
          (List.map (fun e => e.2.2 * x.getD e.2.1 0)
            (List.filter (fun e => decide (e.1 = i)) M.entries)).sum) (List.range N)).length <
          L - N := by
        simp only [List.length_map, List.length_range]
        omega
      rw [if_pos hlt]
      simp only [Option.map_some', Option.some.injEq]
      have hnil : M.entries.filter (fun e => decide (e.1 = i)) = [] := by
        rw [List.filter_eq_nil_iff]
        intro e he
        have := hrows e he
        simp only [decide_eq_true_eq]
        omega
      rw [hnil]
      rfl
    · rw [List.getElem?_eq_none_iff.mpr (by simpa using hiL),
        List.getElem?_eq_none_iff.mpr (by
          simp only [List.length_append, List.length_map, List.length_range,
            List.length_replicate]
          omega)]

theorem addAssign_append : ∀ (a b c d : List ℚ), a.length = b.length →
    addAssign (a ++ c) (b ++ d) = addAssign a b ++ addAssign c d
  | [], [], _, _, _ => rfl
  | [], _ :: _, _, _, h => by simp at h
  | _ :: _, [], _, _, h => by simp at h
  | x :: a, y :: b, c, d, h => by
    simp only [List.cons_append, addAssign, List.cons.injEq, true_and]
    exact addAssign_append a b c d (by simpa using h)

theorem length_SparseMatrix_Mult (M : SparseMatrix) (x : List ℚ) (n : Nat) :
    (M.Mult x n).length = n := by
  simp [SparseMatrix.Mult]

theorem additiveLoop_pad (S : SchwarzSmoother) (r r' : List ℚ) (N m : Nat) :
    ∀ (order : List Nat) (acc : List ℚ), acc.length = N →
      (∀ k, k ∈ order → (S.zaux r' k).length = N ∧
        S.zaux r k = S.zaux r' k ++ List.replicate m 0) →
      S.additiveLoop r order (acc ++ List.replicate m 0) =
        S.additiveLoop r' order acc ++ List.replicate m 0
  | [], _, _, _ => rfl
  | k :: order, acc, hacc, hz => by
    obtain ⟨hlen, heq⟩ := hz k (List.mem_cons_self _ _)
    unfold SchwarzSmoother.additiveLoop
    rw [List.foldl_cons, List.foldl_cons, heq,
      addAssign_append acc (S.zaux r' k) _ _ (by rw [hacc, hlen]), addAssign_zero]
    exact additiveLoop_pad S r r' N m order _ (by rw [length_addAssign, hacc])
      (fun k' hk' => hz k' (List.mem_cons_of_mem _ hk'))

theorem mem_of_mem_selection (ms : List Nat) :
    ∀ (c : Nat) e, e ∈ selection c ms → e.1 ∈ ms := by
  induction ms with
  | nil => intro c e he; simp [selection] at he
  | cons m ms ih =>
    intro c e he
    simp only [selection, List.mem_append, List.mem_singleton] at he
    rcases he with he | rfl
    · exact List.mem_cons_of_mem _ (ih (c + 1) e he)
    · simp

/-- the rows of the entries of a restriction operator are enumerated DOFs -/
theorem build_Pid_rows (patches : patch_nod_info) (ref_levels_ : Int)
    (fespace : FiniteElementSpace) (k : Nat) (hk : k < patches.nrpatch) :
    ∀ e, e ∈ ((patch_assembly.build patches ref_levels_ fespace).Pid.getD k
      (SparseMatrix.square 0)).entries → e.1 ∈ allDofs fespace := by
  intro e he
  rw [List.getD_eq_getElem?_getD, build_Pid_get patches ref_levels_ fespace k hk] at he
  simp only [Option.getD_some] at he
  have h1 := mem_of_mem_selection _ 0 e he
  exact (mem_setCalls patches fespace k e.1 ((mem_appendedDofs patches fespace k e.1).mp h1)).2

/-- C14, as amended: `Mult` checks no size and reports no error.  When every
enumerated DOF is below the global DOF count `N = GetVSize()`, the residual `r`
has at least `N` entries and `z` has the size of `r`, the call returns the
correction computed from the first `N` entries of `r`, followed by zeros: the
entries of `r` at and beyond `N` are ignored. -/
theorem Mult_oversized_residual (S : SchwarzSmoother) (patches : patch_nod_info)
    (ref_levels_ : Int) (fespace : FiniteElementSpace) (r z : List ℚ)
    (hP : S.P = patch_assembly.build patches ref_levels_ fespace)
    (hn : S.nrpatch = patches.nrpatch)
    (hdof : ∀ m, m ∈ allDofs fespace → m < fespace.vsize)
    (hr : fespace.vsize ≤ r.length) (hz : z.length = r.length) :
    S.Mult r z =
        S.Mult (r.take fespace.vsize) (z.take fespace.vsize) ++
          List.replicate (r.length - fespace.vsize) 0 ∧
      (S.sType = SmootherType.ADDITIVE → ∀ i, i < fespace.vsize →
        (S.Mult r z).getD i 0 =
          ∑ k ∈ Finset.range S.nrpatch,
            (((S.P.Pid.getD k (SparseMatrix.square 0)).Mult
              (S.invA_local k
                ((S.P.Pid.getD k (SparseMatrix.square 0)).MultTranspose
                  (r.take fespace.vsize) (S.P.Pid.getD k (SparseMatrix.square 0)).width))
              fespace.vsize).getD i 0)) := by
  have hz0 : assignZero z =
      List.replicate fespace.vsize 0 ++ List.replicate (r.length - fespace.vsize) 0 := by
    rw [assignZero_eq, hz, List.append_replicate_replicate]
    congr 1
    omega
  have hz1 : assignZero (z.take fespace.vsize) = List.replicate fespace.vsize 0 := by
    rw [assignZero_eq, List.length_take, hz, Nat.min_eq_left hr]
  have hrl : (r.take fespace.vsize).length = fespace.vsize := by
    rw [List.length_take, Nat.min_eq_left hr]
  have hmain : S.Mult r z =
      S.Mult (r.take fespace.vsize) (z.take fespace.vsize) ++
        List.replicate (r.length - fespace.vsize) 0 := by
    unfold SchwarzSmoother.Mult
    simp only [hz0, hz1]
    cases S.sType
    · simp only []
      apply additiveLoop_pad S r (r.take fespace.vsize) fespace.vsize
      · simp
      · intro k hk
        have hk' : k < patches.nrpatch := by
          rw [← hn]
          exact List.mem_range.mp hk
        have hrows : ∀ e, e ∈ (S.P.Pid.getD k (SparseMatrix.square 0)).entries →
            e.1 < fespace.vsize := by
          intro e he
          rw [hP] at he
          exact hdof e.1 (build_Pid_rows patches ref_levels_ fespace k hk' e he)
        unfold SchwarzSmoother.zaux
        simp only [hrl]
        refine ⟨length_SparseMatrix_Mult _ _ _, ?_⟩
        rw [MultTranspose_take _ r _ _ hrows, Mult_pad _ _ _ _ hr hrows]
    · rfl
    · rfl
  refine ⟨hmain, ?_⟩
  intro hS i hi
  have hlenT : (S.Mult (r.take fespace.vsize) (z.take fespace.vsize)).length =
      fespace.vsize := by
    rw [length_Mult, List.length_take, hz, Nat.min_eq_left hr]
  have hM : S.Mult (r.take fespace.vsize) (z.take fespace.vsize) =
      S.additiveLoop (r.take fespace.vsize) (List.range S.nrpatch)
        (assignZero (z.take fespace.vsize)) := by
    unfold SchwarzSmoother.Mult
    rw [hS]
  rw [hmain, List.getD_eq_getElem?_getD, List.getElem?_append_left (by rw [hlenT]; exact hi),
    ← List.getD_eq_getElem?_getD, hM,
    getD_additiveLoop_range S _ _ i (by rw [hz1]; simpa using hi), getD_assignZero, zero_add]
  unfold SchwarzSmoother.zaux
  simp only [hrl, SparseMatrix.NumCols]

/-- C14, witness of the amended statement: five DOFs and a residual of size six. -/
theorem Mult_oversized_residual_witness :
    (exSpace.vsize ≤ [(1 : ℚ), 2, 3, 4, 5, 6].length ∧
      [(9 : ℚ), 9, 9, 9, 9, 9].length = [(1 : ℚ), 2, 3, 4, 5, 6].length) ∧
    (exSmoother.Mult [1, 2, 3, 4, 5, 6] [9, 9, 9, 9, 9, 9] =
        exSmoother.Mult (List.take exSpace.vsize [1, 2, 3, 4, 5, 6])
            (List.take exSpace.vsize [9, 9, 9, 9, 9, 9]) ++
          List.replicate ([(1 : ℚ), 2, 3, 4, 5, 6].length - exSpace.vsize) 0 ∧
      (exSmoother.sType = SmootherType.ADDITIVE → ∀ i, i < exSpace.vsize →
        (exSmoother.Mult [1, 2, 3, 4, 5, 6] [9, 9, 9, 9, 9, 9]).getD i 0 =
          ∑ k ∈ Finset.range exSmoother.nrpatch,
            (((exSmoother.P.Pid.getD k (SparseMatrix.square 0)).Mult
              (exSmoother.invA_local k
                ((exSmoother.P.Pid.getD k (SparseMatrix.square 0)).MultTranspose
                  (List.take exSpace.vsize [1, 2, 3, 4, 5, 6])
                  (exSmoother.P.Pid.getD k (SparseMatrix.square 0)).width))
              exSpace.vsize).getD i 0))) :=
  ⟨⟨by decide, rfl⟩,
    Mult_oversized_residual exSmoother exInfo 1 exSpace [1, 2, 3, 4, 5, 6] [9, 9, 9, 9, 9, 9]
      rfl rfl exSpace_dof_range (by decide) rfl⟩

end Schwarz
